import Mathlib

/-!
Verification of the bond-inference engine and the virtual-site augmentation
pass of vermouth-martinize, as a shallow embedding.

Conventions of the embedding:

* Node attributes become fields of `MAtom`.  Attributes the source reads with
  `dict.get` (which may return `None`) are `Option`-typed; `position` is kept
  total because the source indexes it unconditionally (`graph.nodes[n]['position']`)
  on every radius-eligible node.
* Positions live in `ℚ × ℚ × ℚ`.  The source compares Euclidean distances
  against thresholds; we encode the comparison `dist ≤ t` as
  `0 ≤ t ∧ dist² ≤ t²`, which is equivalent for the nonnegative Euclidean
  distance, and keeps every definition executable over `ℚ`.
* Graph edges are the undirected pair set `Finset (Sym2 ℕ)`.  The `distance`
  edge attribute written by the source is not modelled: no property below
  mentions it.
* The spatial index (scipy's KDTree, an external collaborator not part of the
  sources) is modelled from the spec: an all-pairs-within-radius self-query
  returning every index pair at distance at most the query radius.
-/

namespace Vermouth

/-!
Exact rational arithmetic, implemented on numerators and denominators so
that the kernel can evaluate it (`Rat.add`, `Rat.mul` and `Rat.sub` are
irreducible): `qa`, `qs`, `qm` and `qle` are addition, subtraction,
multiplication and order on `ℚ`, as the bridging lemmas `qa_eq`, `qs_eq`,
`qm_eq` and `qle_iff` below establish. -/

/-- Addition on `ℚ`. -/
def qa (a b : ℚ) : ℚ := mkRat (a.num * (b.den : Int) + b.num * (a.den : Int)) (a.den * b.den)

/-- Subtraction on `ℚ`. -/
def qs (a b : ℚ) : ℚ := mkRat (a.num * (b.den : Int) - b.num * (a.den : Int)) (a.den * b.den)

/-- Multiplication on `ℚ`. -/
def qm (a b : ℚ) : ℚ := mkRat (a.num * b.num) (a.den * b.den)

/-- The order `a ≤ b` on `ℚ`. -/
def qle (a b : ℚ) : Bool := decide (a.num * (b.den : Int) ≤ b.num * (a.den : Int))

/-- Binary maximum on `ℚ`. -/
def qmax (a b : ℚ) : ℚ := if qle a b then b else a

/-- A 3-D position, as in the position arrays handled by the source. -/
abbrev Vec3 := ℚ × ℚ × ℚ

/-- Squared Euclidean distance between two positions. -/
def dist2 (p q : Vec3) : ℚ :=
  qa (qa (qm (qs p.1 q.1) (qs p.1 q.1)) (qm (qs p.2.1 q.2.1) (qs p.2.1 q.2.1)))
     (qm (qs p.2.2 q.2.2) (qs p.2.2 q.2.2))

/-- `distLE d t` encodes "the Euclidean distance whose square is `d` is at
most `t`": for `0 ≤ d` this holds exactly when `Real.sqrt d ≤ t`. -/
def distLE (d t : ℚ) : Bool :=
  qle 0 t && qle d (qm t t)

/-- Van der Waals radii table of `make_bonds.py` (`VDW_RADII`), in nm,
including the literal `1.90` entry for Se. -/
def VDW_RADII : List (String × ℚ) :=
  [("H", mkRat 12 100), ("He", mkRat 14 100), ("C", mkRat 17 100), ("N", mkRat 155 1000),
   ("O", mkRat 152 1000), ("F", mkRat 147 1000), ("Ne", mkRat 154 1000), ("Si", mkRat 21 100),
   ("P", mkRat 18 100), ("S", mkRat 18 100), ("Cl", mkRat 175 1000), ("Ar", mkRat 188 1000),
   ("As", mkRat 185 1000), ("Se", mkRat 19 10), ("Br", mkRat 185 1000), ("Kr", mkRat 202 1000),
   ("Te", mkRat 206 1000), ("I", mkRat 198 1000), ("Xe", mkRat 216 1000)]

/-- Radius lookup: `VDW_RADII.get(element)`. -/
def vdwRadius (e : String) : Option ℚ :=
  (VDW_RADII.find? (fun p => p.1 == e)).map Prod.snd

/-- `max(VDW_RADII.values())`. -/
def maxVdwRadius : ℚ :=
  (VDW_RADII.map Prod.snd).foldr qmax 0

/-- The bonding threshold of a pair: `0.5 * (r1 + r2) * fudge`. -/
def bondThreshold (r1 r2 fudge : ℚ) : ℚ := qm (qm (mkRat 1 2) (qa r1 r2)) fudge

/-- The radius the spatial index is queried with:
`max_dist * fudge` where `max_dist = max(VDW_RADII.values()) * fudge`. -/
def queryRadius (fudge : ℚ) : ℚ := qm (qm maxVdwRadius fudge) fudge

/-- An atom (graph node) of the bond-inference engine, holding exactly the
attributes `make_bonds.py` reads. -/
structure MAtom where
  element : Option String
  atomname : Option String
  mol_idx : Option Nat
  chain : Option String
  resid : Option Int
  resname : Option String
  position : Vec3
deriving DecidableEq

/-- A molecule graph: an ordered node list (ids with attributes, in the
graph's iteration order) and an undirected edge set. -/
structure MGraph where
  nodes : List (Nat × MAtom)
  edges : Finset (Sym2 Nat)

/-- Default attribute record for ids absent from the node list; its `element`
is `none`, so absent ids are never radius-eligible. -/
def dfltAtom : MAtom := ⟨none, none, none, none, none, none, (0, 0, 0)⟩

/-- Attribute lookup in a node list. -/
def attrOf (ns : List (Nat × MAtom)) (i : Nat) : MAtom :=
  ((ns.find? (fun p => p.1 == i)).map Prod.snd).getD dfltAtom

/-- The ids of a node list, in order. -/
def idsOf (ns : List (Nat × MAtom)) : List Nat :=
  ns.map Prod.fst

def MGraph.attr (g : MGraph) (i : Nat) : MAtom := attrOf g.nodes i

def MGraph.nodeIds (g : MGraph) : List Nat := idsOf g.nodes

/-- The Van der Waals radius of a node, when its `element` attribute is
present and known to `VDW_RADII`. -/
def radiusOf (ns : List (Nat × MAtom)) (i : Nat) : Option ℚ :=
  (attrOf ns i).element.bind vdwRadius

/-- All ordered index pairs `(l[i], l[j])` with `i < j`, mirroring the
iteration over the strict upper triangle of the pair matrix. -/
def listPairs : List Nat → List (Nat × Nat)
  | [] => []
  | x :: xs => xs.map (fun y => (x, y)) ++ listPairs xs

/-- The nodes the distance pass feeds to the spatial index: nodes of the
graph that are in the `nodes` restriction and whose element has a known
radius (`idx_to_nodenum` in the source). -/
def eligList (ns : List (Nat × MAtom)) (restrict : List Nat) : List Nat :=
  idsOf (ns.filter (fun p => decide (p.1 ∈ restrict) && (radiusOf ns p.1).isSome))

/-- The geometric acceptance test of the distance pass for one candidate
pair: the pair is returned by the radius query (distance at most
`max_dist * fudge`, where `max_dist = max(VDW_RADII.values()) * fudge`),
and its distance is at most `0.5 * (r1 + r2) * fudge`. -/
def geomOK (ns : List (Nat × MAtom)) (fudge : ℚ) (i j : Nat) : Bool :=
  match radiusOf ns i, radiusOf ns j with
  | some r1, some r2 =>
      let d := dist2 (attrOf ns i).position (attrOf ns j).position
      distLE d (queryRadius fudge) && distLE d (bondThreshold r1 r2 fudge)
  | _, _ => false

/-- The set of pairs the distance pass would connect, before the
`has_edge` check: eligible distinct pairs, not in `non_edges`, passing the
geometric test.  This set depends only on node data. -/
def distCandidates (ns : List (Nat × MAtom)) (restrict : List Nat)
    (non_edges : Finset (Sym2 Nat)) (fudge : ℚ) : Finset (Sym2 Nat) :=
  ((listPairs (eligList ns restrict)).filterMap (fun e =>
      if s(e.1, e.2) ∉ non_edges ∧ geomOK ns fudge e.1 e.2 = true
      then some s(e.1, e.2) else none)).toFinset

/-- The `if not nodes: nodes = graph.nodes` normalisation of the `nodes`
argument of `_bonds_from_distance`: an absent (`None`) or empty
restriction is replaced by the full node set. -/
def effRestrict (ns : List (Nat × MAtom)) (restrict : Option (List Nat)) : List Nat :=
  let nodesArg := restrict.getD []
  if nodesArg.isEmpty then idsOf ns else nodesArg

/-- `_bonds_from_distance`: add edges between `restrict` (an empty or absent
restriction is replaced by the full node set) based on the distance
criterion, skipping pairs in `non_edges` and pairs that are already
edges. -/
def bondsFromDistance (g : MGraph) (restrict : Option (List Nat))
    (non_edges : Finset (Sym2 Nat)) (fudge : ℚ) : MGraph :=
  { g with edges := g.edges ∪
      ((distCandidates g.nodes (effRestrict g.nodes restrict) non_edges fudge).filter
        (fun p => p ∉ g.edges)) }

/-- A force-field Block: a reference topology graph.  Every Block node
carries an `atomname`; edges are kept as the ordered pair list the source
iterates over. -/
structure Block where
  nodes : List (Nat × String)
  edges : List (Nat × Nat)
deriving DecidableEq

/-- Atom name of a Block node. -/
def blockAtomName (b : Block) (i : Nat) : String :=
  ((b.nodes.find? (fun p => p.1 == i)).map Prod.snd).getD ""

/-- Adjacency in a Block (undirected). -/
def blockHasEdge (b : Block) (i j : Nat) : Bool :=
  b.edges.any (fun e => (e.1 == i && e.2 == j) || (e.1 == j && e.2 == i))

/-- `networkx.non_edges(block)`: the ordered pairs of distinct Block nodes
that are not adjacent. -/
def blockNonEdges (b : Block) : List (Nat × Nat) :=
  (listPairs (idsOf' b.nodes)).filter (fun e => !blockHasEdge b e.1 e.2)
where
  idsOf' (ns : List (Nat × String)) : List Nat := ns.map Prod.fst

/-- The force-field repository as the bonding engine sees it: a name and
name-indexed Blocks. -/
structure MBForceField where
  name : String
  blocks : List (String × Block)

/-- `force_field.blocks.get(resname)` (where `resname` may be `None`). -/
def MBForceField.getBlock (ff : MBForceField) (rn : Option String) : Option Block :=
  rn.bind (fun n => (ff.blocks.find? (fun p => p.1 == n)).map Prod.snd)

/-- The nodes of `idxs` that carry an `atomname` attribute, in graph order
(the entries `_bonds_from_names` puts into `mol_name_to_idx`). -/
def namedNodes (ns : List (Nat × MAtom)) (idxs : List Nat) : List (Nat × MAtom) :=
  ns.filter (fun p => decide (p.1 ∈ idxs) && p.2.atomname.isSome)

/-- The atom names occurring in the residue, with multiplicity. -/
def namedNames (ns : List (Nat × MAtom)) (idxs : List Nat) : List String :=
  (namedNodes ns idxs).filterMap (fun p => p.2.atomname)

/-- `mol_name_to_idx[name]` once names are known unambiguous. -/
def nameToIdx (ns : List (Nat × MAtom)) (idxs : List Nat) (s : String) : Option Nat :=
  ((namedNodes ns idxs).find? (fun p => p.2.atomname == some s)).map Prod.fst

/-- The images in the molecule of the Block edges whose two atom names are
both present in the residue. -/
def blockEdgeImages (ns : List (Nat × MAtom)) (idxs : List Nat) (b : Block) :
    Finset (Sym2 Nat) :=
  (b.edges.filterMap (fun e =>
      match nameToIdx ns idxs (blockAtomName b e.1),
            nameToIdx ns idxs (blockAtomName b e.2) with
      | some x, some y => some s(x, y)
      | _, _ => none)).toFinset

/-- The images in the molecule of the Block non-edges whose two atom names
are both present in the residue. -/
def blockNonEdgeImages (ns : List (Nat × MAtom)) (idxs : List Nat) (b : Block) :
    Finset (Sym2 Nat) :=
  ((blockNonEdges b).filterMap (fun e =>
      match nameToIdx ns idxs (blockAtomName b e.1),
            nameToIdx ns idxs (blockAtomName b e.2) with
      | some x, some y => some s(x, y)
      | _, _ => none)).toFinset

/-- The edge-set and non-edge computation of `_bonds_from_names`, as a
function of node data alone.  It fails (`KeyError` in the source) when the
residue name has no Block (a Block with no atoms is falsy in the source,
hence also "not known"), or when two atoms of the residue share an atom
name.  On success it returns the edge images to add and the non-edge
images to record. -/
def bondsFromNamesCore (ns : List (Nat × MAtom)) (rn : Option String)
    (idxs : List Nat) (ff : MBForceField) :
    Except String (Finset (Sym2 Nat) × Finset (Sym2 Nat)) :=
  match ff.getBlock rn with
  | none => .error "residue is not known to force field"
  | some b =>
    if b.nodes.isEmpty then .error "residue is not known to force field"
    else if (namedNames ns idxs).Nodup
    then .ok (blockEdgeImages ns idxs b, blockNonEdgeImages ns idxs b)
    else .error "residue has multiple atoms with the same atom name"

/-- `_bonds_from_names`: add the Block edges to the graph and return the
Block non-edges, or fail. -/
def bondsFromNames (g : MGraph) (rn : Option String) (idxs : List Nat)
    (ff : MBForceField) : Except String (MGraph × Finset (Sym2 Nat)) :=
  match bondsFromNamesCore g.nodes rn idxs ff with
  | .error e => .error e
  | .ok (es, nes) => .ok ({ g with edges := g.edges ∪ es }, nes)

/-- The residue key of `_residue_key_func`: the `mol_idx`, `chain`, `resid`
and `resname` attributes (each possibly absent). -/
structure ResKey where
  mol_idx : Option Nat
  chain : Option String
  resid : Option Int
  resname : Option String
deriving DecidableEq

def residueKey (a : MAtom) : ResKey :=
  ⟨a.mol_idx, a.chain, a.resid, a.resname⟩

/-- Append node `i` to the group of key `k`, creating the group at the end
when absent (`defaultdict(set)` insertion order). -/
def insertResidue (k : ResKey) (i : Nat) :
    List (ResKey × List Nat) → List (ResKey × List Nat)
  | [] => [(k, [i])]
  | (k', l) :: rest =>
      if k = k' then (k', l ++ [i]) :: rest else (k', l) :: insertResidue k i rest

/-- `_collect_residues`: group the graph's nodes by residue key. -/
def collectResidues (g : MGraph) : List (ResKey × List Nat) :=
  g.nodes.foldl (fun acc p => insertResidue (residueKey p.2) p.1 acc) []

/-- The full state returned by the embedded `make_bonds`: the graph, the
accumulated known-non-edge set, the warnings issued (one per residue whose
name-based bonding failed, recorded by residue key), and — as a ghost
observation used to state properties about the geometric passes — the set
of edges added by calls to `_bonds_from_distance`. -/
structure MBResult where
  graph : MGraph
  non_edges : Finset (Sym2 Nat)
  warnings : List ResKey
  distAdded : Finset (Sym2 Nat)

/-- One iteration of the per-residue loop of `make_bonds`: try name-based
bonding; on failure fall back to the distance criterion on that residue
(when `allow_dist`) and warn. -/
def mbStep (ff : MBForceField) (allow_dist : Bool) (fudge : ℚ)
    (st : MBResult) (r : ResKey × List Nat) : MBResult :=
  match bondsFromNames st.graph r.1.resname r.2 ff with
  | .ok (g', ne') => { st with graph := g', non_edges := st.non_edges ∪ ne' }
  | .error _ =>
      if allow_dist then
        let g' := bondsFromDistance st.graph (some r.2) ∅ fudge
        { st with graph := g',
                  warnings := st.warnings ++ [r.1],
                  distAdded := st.distAdded ∪ (g'.edges \ st.graph.edges) }
      else { st with warnings := st.warnings ++ [r.1] }

/-- `make_bonds`.  The source refers to an ambient name `force_field` that
is bound nowhere in the sources; following the spec ("Input: a molecule
…, optional force field") the force field is taken as a parameter. -/
def makeBonds (ff : MBForceField) (allow_name allow_dist : Bool) (fudge : ℚ)
    (m : MGraph) : MBResult :=
  let residues := collectResidues m
  let st0 : MBResult := ⟨m, ∅, [], ∅⟩
  let st1 := if allow_name then residues.foldl (mbStep ff allow_dist fudge) st0 else st0
  if allow_dist then
    let g2 := bondsFromDistance st1.graph none st1.non_edges fudge
    { st1 with graph := g2, distAdded := st1.distAdded ∪ (g2.edges \ st1.graph.edges) }
  else st1

/-- A System as the bond-inference processor sees it: an ordered sequence of
molecule graphs. -/
structure MBSystem where
  molecules : List MGraph

/-- `nx.set_node_attributes(molecule, mol_idx, 'mol_idx')`. -/
def setMolIdx (i : Nat) (m : MGraph) : MGraph :=
  { m with nodes := m.nodes.map (fun p => (p.1, { p.2 with mol_idx := some i })) }

/-- Relabel a molecule's nodes to the consecutive ids
`off, off + 1, …` (in node order), remapping its edges accordingly. -/
def relabelMolGraph (off : Nat) (m : MGraph) : MGraph :=
  { nodes := m.nodes.enum.map (fun p => (off + p.1, p.2.2)),
    edges := m.edges.image (Sym2.map (fun i => off + (idsOf m.nodes).indexOf i)) }

/-- `nx.disjoint_union_all`: fuse molecules into one graph, relabelling the
nodes of each to fresh consecutive integers. -/
def disjointUnionAll (ms : List MGraph) : MGraph :=
  go 0 ms
where
  go (off : Nat) : List MGraph → MGraph
    | [] => ⟨[], ∅⟩
    | m :: rest =>
        let m' := relabelMolGraph off m
        let r := go (off + m.nodes.length) rest
        ⟨m'.nodes ++ r.nodes, m'.edges ∪ r.edges⟩

/-- A Python value reaching `Processor.run_system`: either a System, or (as
happens on the sequential path of `MakeBonds.run_system`, which rebinds
`system` to the fused graph) a single molecule graph. -/
inductive PyGraphVal where
  | system (s : MBSystem)
  | mol (m : MGraph)

/-- Modelled from the spec: `Processor.run_system` (the `processor.py` base
class is not among the sources).  Per spec §4.4 the default system behavior
applies the molecule-level transformation to each molecule of the system
independently, in input order; it therefore reads the `molecules` sequence
of its argument, which only a System has — on a molecule graph the lookup
fails (`AttributeError`). -/
def processorRunSystem (runMol : MGraph → MGraph) :
    PyGraphVal → Except String PyGraphVal
  | .system s => .ok (.system ⟨s.molecules.map runMol⟩)
  | .mol _ => .error "AttributeError: the graph has no attribute molecules"

/-- `MakeBonds.run_molecule`. -/
def makeBondsRunMolecule (ff : MBForceField) (allow_name allow_dist : Bool)
    (fudge : ℚ) (m : MGraph) : MGraph :=
  (makeBonds ff allow_name allow_dist fudge m).graph

/-- `MakeBonds.run_system`.  The sequential branch rebinds `system` to the
fused graph and calls the base-class system runner on it; that runner
reads `system.molecules`, which the fused molecule graph does not have, so
the call fails and nothing after it runs (the connected-component split
the comments announce is never reached).  The dead `.ok` branch below
returns the annotated input system, mirroring that on that branch the
original System would be left as previously mutated. -/
def makeBondsRunSystem (ff : MBForceField) (allow_name allow_dist : Bool)
    (fudge : ℚ) (nproc : Option Nat) (sys : MBSystem) : Except String MBSystem :=
  if sys.molecules.isEmpty then .ok sys
  else
    let sys1 : MBSystem := ⟨sys.molecules.enum.map (fun p => setMolIdx p.1 p.2)⟩
    if (match nproc with | some n => decide (n > 1) | none => false) then
      match processorRunSystem (makeBondsRunMolecule ff allow_name allow_dist fudge)
          (.system sys1) with
      | .ok (.system s') => .ok s'
      | .ok (.mol _) => .error "unreachable"
      | .error e => .error e
    else
      let fused := disjointUnionAll sys1.molecules
      match processorRunSystem (makeBondsRunMolecule ff allow_name allow_dist fudge)
          (.mol fused) with
      | .error e => .error e
      | .ok _ => .ok sys1

end Vermouth

namespace GoVS

/-!
Shallow embedding of `go_vs_includes.py`.  Atom attributes here are the
ones that module reads and writes.  The `position` attribute of a virtual
site shares the *reference* to the backbone bead's position array; the
embedding models a position attribute as a reference (`posref : Nat`) into
an ambient position store, so aliasing is visible as equality of
references. -/

/-- An atom as `go_vs_includes.py` sees it. -/
structure VAtom where
  atomname : Option String
  resid : Int
  resname : String
  chain : String
  atype : Option String
  charge_group : Option Int
  charge : Option ℚ
  posref : Nat
deriving DecidableEq

/-- An interaction record. -/
structure Interaction where
  atoms : List Nat
  parameters : List String
  meta_go_vs : Bool
  meta_group : String
deriving DecidableEq

/-- A molecule as `go_vs_includes.py` sees it: ordered nodes, interaction
lists keyed by type, and the two meta entries the processor touches. -/
structure VMol where
  nodes : List (Nat × VAtom)
  interactions : List (String × List Interaction)
  meta_moltype : Option String
  meta_post_section_lines : List (String × List String)
deriving DecidableEq

/-- Association-list lookup with a default. -/
def alistGet {β : Type} (l : List (String × β)) (k : String) (d : β) : β :=
  ((l.find? (fun p => p.1 == k)).map Prod.snd).getD d

/-- Association-list update (set key `k` to `v`, appending the key if new). -/
def alistSet {β : Type} (l : List (String × β)) (k : String) (v : β) :
    List (String × β) :=
  if l.any (fun p => p.1 == k)
  then l.map (fun p => if p.1 == k then (k, v) else p)
  else l ++ [(k, v)]

/-- `max(molecule.nodes)`. -/
def maxNodeId (ns : List (Nat × VAtom)) : Nat :=
  (ns.map Prod.fst).foldr max 0

/-- `max(charge_groups) if charge_groups else 0`. -/
def maxChargeGroup (ns : List (Nat × VAtom)) : Int :=
  let cgs := ns.filterMap (fun p => p.2.charge_group)
  match cgs with
  | [] => 0
  | c :: cs => cs.foldr max c

/-- The loop of `add_virtual_sites`: walk the nodes in order and, for every
backbone-named atom, create one virtual-site node (with fresh id and charge
group) and one virtual-site interaction. -/
def vsLoop (pre : String) (backbone : String) (atomname : String) (charge : ℚ) :
    List (Nat × VAtom) → Nat → Int → List (Nat × VAtom) × List Interaction
  | [], _, _ => ([], [])
  | (nid, a) :: rest, newId, newCG =>
      if a.atomname = some backbone then
        let nid' := newId + 1
        let cg' := newCG + 1
        let node : Nat × VAtom :=
          (nid', { atomname := some atomname,
                   resid := a.resid,
                   resname := a.resname,
                   chain := a.chain,
                   atype := some (pre ++ "_" ++ toString a.resid),
                   charge_group := some cg',
                   charge := some charge,
                   posref := a.posref })
        let vs : Interaction := ⟨[nid', nid], ["1"], true, "Virtual go site"⟩
        let r := vsLoop pre backbone atomname charge rest nid' cg'
        (node :: r.1, vs :: r.2)
      else vsLoop pre backbone atomname charge rest newId newCG

/-- `add_virtual_sites`: no-op on an atom-less molecule; otherwise append
the virtual-site nodes and record the virtual-site interactions under
`virtual_sitesn` (creating the key when absent).  The source's defaults
`backbone='BB'`, `atomname='CA'`, `charge=0` are passed explicitly at the
call site. -/
def addVirtualSites (m : VMol) (pre : String) (backbone : String)
    (atomname : String) (charge : ℚ) : VMol :=
  if m.nodes.isEmpty then m
  else
    let r := vsLoop pre backbone atomname charge m.nodes (maxNodeId m.nodes)
        (maxChargeGroup m.nodes)
    let inter0 := if m.interactions.any (fun p => p.1 == "virtual_sitesn")
        then m.interactions else m.interactions ++ [("virtual_sitesn", [])]
    { m with nodes := m.nodes ++ r.1,
             interactions :=
               alistSet inter0 "virtual_sitesn"
                 (alistGet inter0 "virtual_sitesn" [] ++ r.2) }

/-- The include line appended for a section. -/
def includeLine (moltype sec : String) : String :=
  "#include \"" ++ moltype ++ "_" ++ sec ++ "_VirtGoSites.itp\""

/-- `GoVirtIncludes.run_molecule`: require a (truthy) moltype, add the
virtual sites, then append one include line per configured section to the
`post_section_lines` meta entry. -/
def runMolecule (sections : List String) (m : VMol) : Except String VMol :=
  match m.meta_moltype with
  | none => .error "The molecule does not have a moltype name."
  | some moltype =>
    if moltype = "" then .error "The molecule does not have a moltype name."
    else
      let m1 := addVirtualSites m moltype "BB" "CA" 0
      let includes := sections.foldl
        (fun acc sec => alistSet acc sec (alistGet acc sec [] ++ [includeLine moltype sec]))
        m1.meta_post_section_lines
      .ok { m1 with meta_post_section_lines := includes }

end GoVS

namespace Vermouth

/-! Concrete inputs used to evaluate the definitions on explicit data. -/

/-- A selenium atom at `(x, 0, 0)`. -/
def seAtom (x : ℚ) : MAtom := { dfltAtom with element := some "Se", position := (x, 0, 0) }

/-- Two Se atoms `3/5` apart, no edges. -/
def gSe : MGraph := ⟨[(0, seAtom 0), (1, seAtom (mkRat 3 5))], ∅⟩

/-- A carbon atom at `(x, 0, 0)`. -/
def cAtom (x : ℚ) : MAtom := { dfltAtom with element := some "C", position := (x, 0, 0) }

/-- Two C atoms exactly at the bonding threshold `0.17`, no edges. -/
def gC : MGraph := ⟨[(0, cAtom 0), (1, cAtom (mkRat 17 100))], ∅⟩

/-- A reference Block with atoms `A`, `B`, `C` and the single edge `A–B`
(so `A–C` and `B–C` are Block non-edges). -/
def blockALA : Block := ⟨[(0, "A"), (1, "B"), (2, "C")], [(0, 1)]⟩

/-- A force field knowing only residue `ALA`. -/
def ffA : MBForceField := ⟨"test", [("ALA", blockALA)]⟩

/-- An `ALA` atom named `n`. -/
def alaAtom (n : String) : MAtom :=
  { dfltAtom with atomname := some n, resname := some "ALA" }

/-- One `ALA` residue with atoms named `A`, `B`, `C`. -/
def mA : MGraph := ⟨[(0, alaAtom "A"), (1, alaAtom "B"), (2, alaAtom "C")], ∅⟩

/-- A force field with no blocks at all. -/
def ffE : MBForceField := ⟨"empty", []⟩

/-- A single-residue molecule whose residue name `XXX` no force field knows. -/
def mX : MGraph := ⟨[(0, { dfltAtom with resname := some "XXX" })], ∅⟩

/-- The residue key of `mX`'s single residue. -/
def kX : ResKey := ⟨none, none, none, some "XXX"⟩

/-- Two atoms identical except for their chain. -/
def gCh : MGraph :=
  ⟨[(0, { dfltAtom with chain := some "A" }), (1, { dfltAtom with chain := some "B" })], ∅⟩

/-- A one-molecule system. -/
def sysW : MBSystem := ⟨[gSe]⟩

/-- `j` belongs to a group of key `k` in the grouping `l`. -/
def memGroup (l : List (ResKey × List Nat)) (k : ResKey) (j : Nat) : Prop :=
  ∃ gl, (k, gl) ∈ l ∧ j ∈ gl

end Vermouth

namespace GoVS

/-- A backbone bead of residue `i` whose position attribute references
slot `pr` of the position store. -/
def bbAtom (i : Int) (pr : Nat) : VAtom :=
  ⟨some "BB", i, "ALA", "A", none, some i, none, pr⟩

/-- A side-chain bead (not backbone-named). -/
def scAtom (i : Int) (pr : Nat) : VAtom :=
  ⟨some "SC1", i, "ALA", "A", none, some i, none, pr⟩

/-- A molecule with 5 backbone-named atoms and 3 other atoms. -/
def m8 : VMol :=
  ⟨[(0, bbAtom 1 0), (1, scAtom 1 1), (2, bbAtom 2 2), (3, scAtom 2 3),
    (4, bbAtom 3 4), (5, scAtom 3 5), (6, bbAtom 4 6), (7, bbAtom 5 7)],
   [], some "mol", []⟩

/-- An atom-less molecule carrying a moltype name. -/
def mE : VMol := ⟨[], [], some "mol", []⟩

end GoVS

namespace Vermouth

/-! Bridging lemmas: the kernel-reducible rational operations coincide with
the standard operations on `ℚ`. -/

theorem qa_eq (a b : ℚ) : qa a b = a + b := by
  have ha : ((a.den : ℚ)) ≠ 0 := Nat.cast_ne_zero.mpr a.den_nz
  have hb : ((b.den : ℚ)) ≠ 0 := Nat.cast_ne_zero.mpr b.den_nz
  rw [qa, Rat.mkRat_eq_div]
  push_cast
  conv_rhs => rw [← Rat.num_div_den a, ← Rat.num_div_den b]
  rw [div_add_div _ _ ha hb]
  ring

theorem qs_eq (a b : ℚ) : qs a b = a - b := by
  have ha : ((a.den : ℚ)) ≠ 0 := Nat.cast_ne_zero.mpr a.den_nz
  have hb : ((b.den : ℚ)) ≠ 0 := Nat.cast_ne_zero.mpr b.den_nz
  rw [qs, Rat.mkRat_eq_div]
  push_cast
  conv_rhs => rw [← Rat.num_div_den a, ← Rat.num_div_den b]
  rw [div_sub_div _ _ ha hb]
  ring

theorem qm_eq (a b : ℚ) : qm a b = a * b := by
  rw [qm, Rat.mkRat_eq_div]
  push_cast
  conv_rhs => rw [← Rat.num_div_den a, ← Rat.num_div_den b]
  rw [div_mul_div_comm]

theorem qle_iff (a b : ℚ) : qle a b = true ↔ a ≤ b := by
  have ha : (0 : ℚ) < (a.den : ℚ) := by exact_mod_cast a.pos
  have hb : (0 : ℚ) < (b.den : ℚ) := by exact_mod_cast b.pos
  rw [qle, decide_eq_true_eq]
  rw [show (a ≤ b) ↔ ((a.num : ℚ) / (a.den : ℚ) ≤ (b.num : ℚ) / (b.den : ℚ)) by
    rw [Rat.num_div_den, Rat.num_div_den]]
  rw [div_le_div_iff₀ ha hb]
  exact_mod_cast Iff.rfl

theorem qa_comm (a b : ℚ) : qa a b = qa b a := by
  unfold qa
  congr 1 <;> ring

theorem bondThreshold_comm (r1 r2 f : ℚ) : bondThreshold r1 r2 f = bondThreshold r2 r1 f := by
  unfold bondThreshold
  rw [qa_comm]

/-! Lemmas about the distance pass. -/

theorem dist2_comm (p q : Vec3) : dist2 p q = dist2 q p := by
  simp only [dist2, qa_eq, qs_eq, qm_eq]
  ring

theorem union_filter_not_mem (A S : Finset (Sym2 Nat)) :
    A ∪ S.filter (fun p => p ∉ A) = A ∪ S := by
  ext p
  simp only [Finset.mem_union, Finset.mem_filter]
  tauto

theorem bondsFromDistance_nodes (g : MGraph) (r : Option (List Nat))
    (ne : Finset (Sym2 Nat)) (f : ℚ) : (bondsFromDistance g r ne f).nodes = g.nodes :=
  rfl

theorem bondsFromDistance_edges (g : MGraph) (r : Option (List Nat))
    (ne : Finset (Sym2 Nat)) (f : ℚ) :
    (bondsFromDistance g r ne f).edges =
      g.edges ∪ distCandidates g.nodes (effRestrict g.nodes r) ne f := by
  show g.edges ∪ _ = _
  rw [union_filter_not_mem]

theorem mem_listPairs_endpoints {l : List Nat} {e : Nat × Nat} (h : e ∈ listPairs l) :
    e.1 ∈ l ∧ e.2 ∈ l := by
  induction l with
  | nil => simp [listPairs] at h
  | cons x xs ih =>
      simp only [listPairs, List.mem_append, List.mem_map] at h
      rcases h with ⟨y, hy, he⟩ | h
      · cases he
        exact ⟨List.mem_cons_self x xs, List.mem_cons_of_mem x hy⟩
      · rcases ih h with ⟨h1, h2⟩
        exact ⟨List.mem_cons_of_mem x h1, List.mem_cons_of_mem x h2⟩

theorem listPairs_total {l : List Nat} {u v : Nat} (huv : u ≠ v)
    (hu : u ∈ l) (hv : v ∈ l) :
    (u, v) ∈ listPairs l ∨ (v, u) ∈ listPairs l := by
  induction l with
  | nil => simp at hu
  | cons x xs ih =>
      simp only [listPairs, List.mem_append, List.mem_map]
      rcases List.mem_cons.mp hu with rfl | hu'
      · rcases List.mem_cons.mp hv with rfl | hv'
        · exact absurd rfl huv
        · exact Or.inl (Or.inl ⟨v, hv', rfl⟩)
      · rcases List.mem_cons.mp hv with rfl | hv'
        · exact Or.inr (Or.inl ⟨u, hu', rfl⟩)
        · rcases ih hu' hv' with h | h
          · exact Or.inl (Or.inr h)
          · exact Or.inr (Or.inr h)

theorem listPairs_ne_of_nodup {l : List Nat} (hl : l.Nodup) {e : Nat × Nat}
    (h : e ∈ listPairs l) : e.1 ≠ e.2 := by
  induction l with
  | nil => simp [listPairs] at h
  | cons x xs ih =>
      simp only [listPairs, List.mem_append, List.mem_map] at h
      rcases List.nodup_cons.mp hl with ⟨hx, hxs⟩
      rcases h with ⟨y, hy, he⟩ | h
      · cases he
        intro hxy
        have hxy' : x = y := hxy
        exact hx (hxy' ▸ hy)
      · exact ih hxs h

theorem mem_eligList {ns : List (Nat × MAtom)} {restrict : List Nat} {u : Nat} :
    u ∈ eligList ns restrict ↔
      u ∈ idsOf ns ∧ u ∈ restrict ∧ (radiusOf ns u).isSome := by
  unfold eligList idsOf
  simp only [List.mem_map, List.mem_filter, Bool.and_eq_true, decide_eq_true_eq]
  constructor
  · rintro ⟨p, ⟨hp, hr, hs⟩, rfl⟩
    exact ⟨⟨p, hp, rfl⟩, hr, hs⟩
  · rintro ⟨⟨p, hp, rfl⟩, hr, hs⟩
    exact ⟨p, ⟨hp, hr, hs⟩, rfl⟩

theorem eligList_nodup {ns : List (Nat × MAtom)} {restrict : List Nat}
    (h : (idsOf ns).Nodup) : (eligList ns restrict).Nodup := by
  unfold eligList idsOf at *
  exact h.sublist ((List.filter_sublist ns).map Prod.fst)

theorem geomOK_comm (ns : List (Nat × MAtom)) (f : ℚ) (i j : Nat) :
    geomOK ns f i j = geomOK ns f j i := by
  unfold geomOK
  cases h1 : radiusOf ns i <;> cases h2 : radiusOf ns j <;> simp
  rw [dist2_comm, bondThreshold_comm]

theorem mem_distCandidates {ns : List (Nat × MAtom)} {restrict : List Nat}
    {ne : Finset (Sym2 Nat)} {f : ℚ} {u v : Nat} (huv : u ≠ v) :
    s(u, v) ∈ distCandidates ns restrict ne f ↔
      u ∈ eligList ns restrict ∧ v ∈ eligList ns restrict ∧
      s(u, v) ∉ ne ∧ geomOK ns f u v = true := by
  unfold distCandidates
  rw [List.mem_toFinset, List.mem_filterMap]
  constructor
  · rintro ⟨⟨a, b⟩, he, hsome⟩
    by_cases hc : s(a, b) ∉ ne ∧ geomOK ns f a b = true
    · rw [if_pos hc] at hsome
      have hee : s(a, b) = s(u, v) := Option.some.inj hsome
      rcases mem_listPairs_endpoints he with ⟨h1, h2⟩
      rcases Sym2.eq_iff.mp hee with ⟨rfl, rfl⟩ | ⟨rfl, rfl⟩
      · exact ⟨h1, h2, hee ▸ hc.1, hc.2⟩
      · exact ⟨h2, h1, hee ▸ hc.1, (geomOK_comm ns f a b) ▸ hc.2⟩
    · rw [if_neg hc] at hsome
      cases hsome
  · rintro ⟨hu, hv, hne, hok⟩
    rcases listPairs_total huv hu hv with h | h
    · exact ⟨(u, v), h, by rw [if_pos ⟨hne, hok⟩]⟩
    · refine ⟨(v, u), h, ?_⟩
      have hsw : s(v, u) = s(u, v) := Sym2.eq_swap
      rw [if_pos]
      · rw [hsw]
      · exact ⟨hsw ▸ hne, (geomOK_comm ns f v u) ▸ hok⟩

/-- C10: calling the geometric bonding pass with an empty collection as the
node restriction behaves identically to calling it with no restriction at
all: the empty `nodes` argument is replaced by the full node set of the
graph, so all eligible atoms of the graph are considered. -/
theorem distance_pass_empty_restriction (g : MGraph) (ne : Finset (Sym2 Nat)) (fudge : ℚ) :
    bondsFromDistance g (some []) ne fudge = bondsFromDistance g none ne fudge ∧
    bondsFromDistance g (some []) ne fudge = bondsFromDistance g (some g.nodeIds) ne fudge := by
  refine ⟨rfl, ?_⟩
  simp [bondsFromDistance, effRestrict, MGraph.nodeIds]

set_option maxRecDepth 100000 in
set_option maxHeartbeats 1000000 in
/-- C1 counterexample: with `fudge = 1/2`, two Se atoms `3/5` apart satisfy
every condition the claim states for bonding (not an edge, not a known
non-edge, distance at most `0.5*(r1+r2)*fudge = 19/20`), yet the pass does
not add the edge, because the spatial-index query radius is
`max_radius*fudge*fudge = 19/40`, which excludes the pair.  The claimed
"exactly when" equivalence is therefore false at this input. -/
theorem distance_pass_threshold_only_cex :
    ¬ (((s(0, 1) : Sym2 Nat) ∈ (bondsFromDistance gSe none ∅ (mkRat 1 2)).edges ∧
          (s(0, 1) : Sym2 Nat) ∉ gSe.edges) ↔
        ((s(0, 1) : Sym2 Nat) ∉ gSe.edges ∧
          (s(0, 1) : Sym2 Nat) ∉ (∅ : Finset (Sym2 Nat)) ∧
          distLE (dist2 (gSe.attr 0).position (gSe.attr 1).position)
            (bondThreshold (mkRat 19 10) (mkRat 19 10) (mkRat 1 2)) = true)) := by
  decide

/-- C1 amended: in the geometric bonding pass, for every pair of distinct
atoms that both have a recognized element radius, an edge is added exactly
when the pair is not already an edge, is not in the known-non-edge set,
its measured distance is at most `0.5*(r1+r2)*fudge` (boundary included),
and the pair is returned by the spatial-index query, i.e. its distance is
also at most `max_radius*fudge*fudge` (a condition that never excludes a
pair when `fudge ≥ 1`). -/
theorem distance_pass_adds_iff (g : MGraph) (restrict : Option (List Nat))
    (ne : Finset (Sym2 Nat)) (fudge : ℚ) (u v : Nat) (r1 r2 : ℚ)
    (huv : u ≠ v)
    (hur : u ∈ effRestrict g.nodes restrict) (hvr : v ∈ effRestrict g.nodes restrict)
    (hu : u ∈ g.nodeIds) (hv : v ∈ g.nodeIds)
    (hr1 : radiusOf g.nodes u = some r1) (hr2 : radiusOf g.nodes v = some r2) :
    (s(u, v) ∈ (bondsFromDistance g restrict ne fudge).edges ∧ s(u, v) ∉ g.edges) ↔
      (s(u, v) ∉ g.edges ∧ s(u, v) ∉ ne ∧
        distLE (dist2 (g.attr u).position (g.attr v).position)
          (bondThreshold r1 r2 fudge) = true ∧
        distLE (dist2 (g.attr u).position (g.attr v).position)
          (queryRadius fudge) = true) := by
  rw [bondsFromDistance_edges]
  have helu : u ∈ eligList g.nodes (effRestrict g.nodes restrict) :=
    mem_eligList.mpr ⟨hu, hur, by rw [hr1]; rfl⟩
  have helv : v ∈ eligList g.nodes (effRestrict g.nodes restrict) :=
    mem_eligList.mpr ⟨hv, hvr, by rw [hr2]; rfl⟩
  have hok : geomOK g.nodes fudge u v = true ↔
      (distLE (dist2 (g.attr u).position (g.attr v).position)
          (bondThreshold r1 r2 fudge) = true ∧
        distLE (dist2 (g.attr u).position (g.attr v).position)
          (queryRadius fudge) = true) := by
    unfold geomOK
    rw [hr1, hr2]
    simp only [MGraph.attr, Bool.and_eq_true]
    exact and_comm
  constructor
  · rintro ⟨hin, hno⟩
    rcases Finset.mem_union.mp hin with h | h
    · exact absurd h hno
    · rcases (mem_distCandidates huv).mp h with ⟨_, _, hne, hg⟩
      rcases hok.mp hg with ⟨h1, h2⟩
      exact ⟨hno, hne, h1, h2⟩
  · rintro ⟨hno, hne, h1, h2⟩
    refine ⟨Finset.mem_union_right _ ?_, hno⟩
    exact (mem_distCandidates huv).mpr ⟨helu, helv, hne, hok.mpr ⟨h1, h2⟩⟩

set_option maxRecDepth 100000 in
set_option maxHeartbeats 1000000 in
/-- C1 witness: two C atoms exactly at the boundary distance `0.17` with
`fudge = 1`: every hypothesis of `distance_pass_adds_iff` holds, and the
equivalence instantiates to this pair — in particular the boundary
distance bonds. -/
theorem distance_pass_adds_iff_witness :
    ((s(0, 1) ∈ (bondsFromDistance gC none ∅ 1).edges ∧ s(0, 1) ∉ gC.edges) ↔
      (s(0, 1) ∉ gC.edges ∧ s(0, 1) ∉ (∅ : Finset (Sym2 Nat)) ∧
        distLE (dist2 (gC.attr 0).position (gC.attr 1).position)
          (bondThreshold (mkRat 17 100) (mkRat 17 100) 1) = true ∧
        distLE (dist2 (gC.attr 0).position (gC.attr 1).position)
          (queryRadius 1) = true)) ∧
    s(0, 1) ∈ (bondsFromDistance gC none ∅ 1).edges :=
  ⟨distance_pass_adds_iff gC none ∅ 1 0 1 (mkRat 17 100) (mkRat 17 100) (by decide) (by decide)
      (by decide) (by decide) (by decide) (by decide) (by decide),
   by decide⟩

end Vermouth

namespace Vermouth

/-! Lemmas about residue grouping. -/

theorem memGroup_cons {a : ResKey} {b : List Nat} {t : List (ResKey × List Nat)}
    {k : ResKey} {j : Nat} :
    memGroup ((a, b) :: t) k j ↔ (k = a ∧ j ∈ b) ∨ memGroup t k j := by
  unfold memGroup
  constructor
  · rintro ⟨gl, hmem, hj⟩
    rcases List.mem_cons.mp hmem with heq | hmem'
    · rcases Prod.mk.injEq .. ▸ heq with ⟨h1, h2⟩
      exact Or.inl ⟨h1, h2 ▸ hj⟩
    · exact Or.inr ⟨gl, hmem', hj⟩
  · rintro (⟨rfl, hj⟩ | ⟨gl, hmem, hj⟩)
    · exact ⟨b, List.mem_cons_self _ _, hj⟩
    · exact ⟨gl, List.mem_cons_of_mem _ hmem, hj⟩

theorem memGroup_insertResidue (k k' : ResKey) (i j : Nat)
    (l : List (ResKey × List Nat)) :
    memGroup (insertResidue k i l) k' j ↔ memGroup l k' j ∨ (k' = k ∧ j = i) := by
  induction l with
  | nil =>
      show memGroup [(k, [i])] k' j ↔ _
      rw [memGroup_cons]
      simp [memGroup]
  | cons hd tl ih =>
      obtain ⟨k0, gl0⟩ := hd
      by_cases h : k = k0
      · subst h
        rw [show insertResidue k i ((k, gl0) :: tl) = (k, gl0 ++ [i]) :: tl from by
          simp [insertResidue]]
        rw [memGroup_cons, memGroup_cons]
        simp only [List.mem_append, List.mem_singleton]
        tauto
      · rw [show insertResidue k i ((k0, gl0) :: tl) = (k0, gl0) :: insertResidue k i tl from by
          simp [insertResidue, h]]
        rw [memGroup_cons, memGroup_cons, ih]
        tauto

theorem memGroup_foldl (ns : List (Nat × MAtom)) (acc : List (ResKey × List Nat))
    (k : ResKey) (j : Nat) :
    memGroup (ns.foldl (fun a p => insertResidue (residueKey p.2) p.1 a) acc) k j ↔
      memGroup acc k j ∨ ∃ c, (j, c) ∈ ns ∧ residueKey c = k := by
  induction ns generalizing acc with
  | nil => simp
  | cons p rest ih =>
      obtain ⟨i0, a0⟩ := p
      rw [List.foldl_cons, ih, memGroup_insertResidue]
      constructor
      · rintro ((hacc | ⟨rfl, rfl⟩) | ⟨c, hc, rfl⟩)
        · exact Or.inl hacc
        · exact Or.inr ⟨a0, List.mem_cons_self _ _, rfl⟩
        · exact Or.inr ⟨c, List.mem_cons_of_mem _ hc, rfl⟩
      · rintro (hacc | ⟨c, hc, rfl⟩)
        · exact Or.inl (Or.inl hacc)
        · rcases List.mem_cons.mp hc with heq | hc'
          · rcases Prod.mk.injEq .. ▸ heq with ⟨h1, h2⟩
            subst h1; subst h2
            exact Or.inl (Or.inr ⟨rfl, rfl⟩)
          · exact Or.inr ⟨c, hc', rfl⟩

theorem mem_collectResidues_iff (g : MGraph) (k : ResKey) (j : Nat) :
    memGroup (collectResidues g) k j ↔ ∃ c, (j, c) ∈ g.nodes ∧ residueKey c = k := by
  unfold collectResidues
  rw [memGroup_foldl]
  simp [memGroup]

theorem insertResidue_keys (k : ResKey) (i : Nat) (l : List (ResKey × List Nat)) :
    (insertResidue k i l).map Prod.fst =
      if k ∈ l.map Prod.fst then l.map Prod.fst else l.map Prod.fst ++ [k] := by
  induction l with
  | nil => simp [insertResidue]
  | cons hd tl ih =>
      obtain ⟨k0, gl0⟩ := hd
      by_cases h : k = k0
      · subst h
        simp [insertResidue]
      · simp only [insertResidue, if_neg h, List.map_cons, ih]
        by_cases h2 : k ∈ tl.map Prod.fst
        · rw [if_pos h2, if_pos (List.mem_cons_of_mem _ h2)]
        · rw [if_neg h2, if_neg ?_, List.cons_append]
          intro hc
          rcases List.mem_cons.mp hc with hc1 | hc2
          · exact h hc1
          · exact h2 hc2

theorem foldl_keys_nodup (ns : List (Nat × MAtom)) (acc : List (ResKey × List Nat))
    (h : (acc.map Prod.fst).Nodup) :
    ((ns.foldl (fun a p => insertResidue (residueKey p.2) p.1 a) acc).map Prod.fst).Nodup := by
  induction ns generalizing acc with
  | nil => exact h
  | cons p rest ih =>
      rw [List.foldl_cons]
      refine ih _ ?_
      rw [insertResidue_keys]
      by_cases h2 : residueKey p.2 ∈ acc.map Prod.fst
      · rw [if_pos h2]; exact h
      · rw [if_neg h2]
        rw [List.nodup_append]
        exact ⟨h, List.nodup_singleton _, by simpa using h2⟩

theorem collectResidues_keys_nodup (g : MGraph) :
    ((collectResidues g).map Prod.fst).Nodup :=
  foldl_keys_nodup g.nodes [] List.nodup_nil

theorem keys_nodup_group_eq {l : List (ResKey × List Nat)}
    (h : (l.map Prod.fst).Nodup) {k : ResKey} {gl1 gl2 : List Nat}
    (h1 : (k, gl1) ∈ l) (h2 : (k, gl2) ∈ l) : gl1 = gl2 := by
  induction l with
  | nil => cases h1
  | cons hd tl ih =>
      obtain ⟨k0, gl0⟩ := hd
      rcases List.nodup_cons.mp h with ⟨hk0, htl⟩
      rcases List.mem_cons.mp h1 with he1 | hm1 <;> rcases List.mem_cons.mp h2 with he2 | hm2
      · rcases Prod.mk.injEq .. ▸ he1 with ⟨_, hg1⟩
        rcases Prod.mk.injEq .. ▸ he2 with ⟨_, hg2⟩
        rw [hg1, hg2]
      · rcases Prod.mk.injEq .. ▸ he1 with ⟨hk, _⟩
        have hmm : k ∈ tl.map Prod.fst := List.mem_map_of_mem Prod.fst hm2
        exact absurd (hk ▸ hmm) hk0
      · rcases Prod.mk.injEq .. ▸ he2 with ⟨hk, _⟩
        have hmm : k ∈ tl.map Prod.fst := List.mem_map_of_mem Prod.fst hm1
        exact absurd (hk ▸ hmm) hk0
      · exact ih htl hm1 hm2

theorem nodes_id_unique {ns : List (Nat × MAtom)} (h : (idsOf ns).Nodup) {i : Nat}
    {a b : MAtom} (ha : (i, a) ∈ ns) (hb : (i, b) ∈ ns) : a = b := by
  induction ns with
  | nil => cases ha
  | cons hd tl ih =>
      obtain ⟨i0, c0⟩ := hd
      rcases List.nodup_cons.mp h with ⟨hi0, htl⟩
      rcases List.mem_cons.mp ha with hea | hma <;> rcases List.mem_cons.mp hb with heb | hmb
      · rcases Prod.mk.injEq .. ▸ hea with ⟨_, h1⟩
        rcases Prod.mk.injEq .. ▸ heb with ⟨_, h2⟩
        rw [h1, h2]
      · rcases Prod.mk.injEq .. ▸ hea with ⟨hi, _⟩
        have hmm : i ∈ idsOf tl := List.mem_map_of_mem Prod.fst hmb
        exact absurd (hi ▸ hmm) hi0
      · rcases Prod.mk.injEq .. ▸ heb with ⟨hi, _⟩
        have hmm : i ∈ idsOf tl := List.mem_map_of_mem Prod.fst hma
        exact absurd (hi ▸ hmm) hi0
      · exact ih htl hma hmb

/-- C6: residue grouping places two atoms in the same group exactly when
all four components of their residue key (molecule index, chain, residue
id, residue name) are equal; in particular, two atoms that differ in chain
or in molecule index are never grouped into the same residue. -/
theorem residue_grouping_exact (g : MGraph) (hN : (idsOf g.nodes).Nodup)
    (u v : Nat) (a b : MAtom) (hu : (u, a) ∈ g.nodes) (hv : (v, b) ∈ g.nodes) :
    ((∃ e ∈ collectResidues g, u ∈ e.2 ∧ v ∈ e.2) ↔ residueKey a = residueKey b) ∧
    ((a.chain ≠ b.chain ∨ a.mol_idx ≠ b.mol_idx) →
      ¬ ∃ e ∈ collectResidues g, u ∈ e.2 ∧ v ∈ e.2) := by
  have hiff : (∃ e ∈ collectResidues g, u ∈ e.2 ∧ v ∈ e.2) ↔ residueKey a = residueKey b := by
    constructor
    · rintro ⟨⟨k, gl⟩, he, hu', hv'⟩
      rcases (mem_collectResidues_iff g k u).mp ⟨gl, he, hu'⟩ with ⟨c, hc, hck⟩
      rcases (mem_collectResidues_iff g k v).mp ⟨gl, he, hv'⟩ with ⟨d, hd, hdk⟩
      rw [nodes_id_unique hN hu hc, nodes_id_unique hN hv hd, hck, hdk]
    · intro hk
      rcases (mem_collectResidues_iff g (residueKey a) u).mpr ⟨a, hu, rfl⟩ with
        ⟨gl1, hg1, hu'⟩
      rcases (mem_collectResidues_iff g (residueKey a) v).mpr ⟨b, hv, hk.symm⟩ with
        ⟨gl2, hg2, hv'⟩
      have : gl1 = gl2 := keys_nodup_group_eq (collectResidues_keys_nodup g) hg1 hg2
      exact ⟨(residueKey a, gl1), hg1, hu', this ▸ hv'⟩
  refine ⟨hiff, ?_⟩
  intro hdiff hex
  have hk := hiff.mp hex
  rcases ResKey.mk.injEq .. ▸ hk with ⟨h1, h2, _, _⟩
  unfold residueKey at hk
  rcases hdiff with hc | hm
  · exact hc (congrArg ResKey.chain hk)
  · exact hm (congrArg ResKey.mol_idx hk)

/-- C6 witness: two atoms that differ only in their chain attribute are not
grouped into the same residue. -/
theorem residue_grouping_exact_witness :
    (idsOf gCh.nodes).Nodup ∧
    ¬ ∃ e ∈ collectResidues gCh, 0 ∈ e.2 ∧ 1 ∈ e.2 :=
  ⟨by decide,
   (residue_grouping_exact gCh (by decide) 0 1
      { dfltAtom with chain := some "A" } { dfltAtom with chain := some "B" }
      (by decide) (by decide)).2 (Or.inl (by decide))⟩

end Vermouth

namespace Vermouth

/-! Lemmas about the name pass and `make_bonds`. -/

theorem mbStep_eq_ok {ff : MBForceField} {ad : Bool} {fudge : ℚ} {st : MBResult}
    {r : ResKey × List Nat} {es nes : Finset (Sym2 Nat)}
    (h : bondsFromNamesCore st.graph.nodes r.1.resname r.2 ff = .ok (es, nes)) :
    mbStep ff ad fudge st r =
      { st with graph := { st.graph with edges := st.graph.edges ∪ es },
                non_edges := st.non_edges ∪ nes } := by
  unfold mbStep bondsFromNames
  rw [h]

theorem mbStep_eq_error {ff : MBForceField} {ad : Bool} {fudge : ℚ} {st : MBResult}
    {r : ResKey × List Nat} {e : String}
    (h : bondsFromNamesCore st.graph.nodes r.1.resname r.2 ff = .error e) :
    mbStep ff ad fudge st r =
      if ad then
        { st with graph := bondsFromDistance st.graph (some r.2) ∅ fudge,
                  warnings := st.warnings ++ [r.1],
                  distAdded := st.distAdded ∪
                    ((bondsFromDistance st.graph (some r.2) ∅ fudge).edges \ st.graph.edges) }
      else { st with warnings := st.warnings ++ [r.1] } := by
  unfold mbStep bondsFromNames
  rw [h]

theorem mbStep_nodes (ff : MBForceField) (ad : Bool) (fudge : ℚ) (st : MBResult)
    (r : ResKey × List Nat) :
    (mbStep ff ad fudge st r).graph.nodes = st.graph.nodes := by
  cases h : bondsFromNamesCore st.graph.nodes r.1.resname r.2 ff with
  | ok pr =>
      obtain ⟨es, nes⟩ := pr
      rw [mbStep_eq_ok h]
  | error e =>
      rw [mbStep_eq_error h]
      cases ad <;> simp [bondsFromDistance_nodes]

theorem mbStep_edges_mono (ff : MBForceField) (ad : Bool) (fudge : ℚ) (st : MBResult)
    (r : ResKey × List Nat) :
    st.graph.edges ⊆ (mbStep ff ad fudge st r).graph.edges := by
  cases h : bondsFromNamesCore st.graph.nodes r.1.resname r.2 ff with
  | ok pr =>
      obtain ⟨es, nes⟩ := pr
      rw [mbStep_eq_ok h]
      exact Finset.subset_union_left
  | error e =>
      rw [mbStep_eq_error h]
      cases ad
      · simp
      · simp only [if_pos]
        rw [bondsFromDistance_edges]
        exact Finset.subset_union_left

theorem mbStep_warnings_mono (ff : MBForceField) (ad : Bool) (fudge : ℚ) (st : MBResult)
    (r : ResKey × List Nat) {w : ResKey} (hw : w ∈ st.warnings) :
    w ∈ (mbStep ff ad fudge st r).warnings := by
  cases h : bondsFromNamesCore st.graph.nodes r.1.resname r.2 ff with
  | ok pr =>
      obtain ⟨es, nes⟩ := pr
      rw [mbStep_eq_ok h]
      exact hw
  | error e =>
      rw [mbStep_eq_error h]
      cases ad <;> simp <;> exact Or.inl hw

theorem foldl_mbStep_nodes (ff : MBForceField) (ad : Bool) (fudge : ℚ)
    (l : List (ResKey × List Nat)) (st : MBResult) :
    ((l.foldl (mbStep ff ad fudge) st).graph.nodes) = st.graph.nodes := by
  induction l generalizing st with
  | nil => rfl
  | cons r rest ih => rw [List.foldl_cons, ih, mbStep_nodes]

theorem foldl_mbStep_edges_mono (ff : MBForceField) (ad : Bool) (fudge : ℚ)
    (l : List (ResKey × List Nat)) (st : MBResult) :
    st.graph.edges ⊆ (l.foldl (mbStep ff ad fudge) st).graph.edges := by
  induction l generalizing st with
  | nil => exact Finset.Subset.refl _
  | cons r rest ih =>
      rw [List.foldl_cons]
      exact (mbStep_edges_mono ff ad fudge st r).trans (ih _)

theorem foldl_mbStep_warnings_mono (ff : MBForceField) (ad : Bool) (fudge : ℚ)
    (l : List (ResKey × List Nat)) (st : MBResult) {w : ResKey} (hw : w ∈ st.warnings) :
    w ∈ (l.foldl (mbStep ff ad fudge) st).warnings := by
  induction l generalizing st with
  | nil => exact hw
  | cons r rest ih =>
      rw [List.foldl_cons]
      exact ih _ (mbStep_warnings_mono ff ad fudge st r hw)

theorem makeBonds_graph_nodes (ff : MBForceField) (an ad : Bool) (fudge : ℚ) (m : MGraph) :
    (makeBonds ff an ad fudge m).graph.nodes = m.nodes := by
  unfold makeBonds
  cases an <;> cases ad <;>
    simp [bondsFromDistance_nodes, foldl_mbStep_nodes]

theorem makeBonds_edges_mono (ff : MBForceField) (an ad : Bool) (fudge : ℚ) (m : MGraph) :
    m.edges ⊆ (makeBonds ff an ad fudge m).graph.edges := by
  unfold makeBonds
  cases an <;> cases ad <;> simp only [Bool.false_eq_true, if_false, if_true]
  · exact Finset.Subset.refl _
  · rw [bondsFromDistance_edges]
    exact Finset.subset_union_left
  · exact foldl_mbStep_edges_mono ff false fudge (collectResidues m) ⟨m, ∅, [], ∅⟩
  · rw [bondsFromDistance_edges]
    exact (foldl_mbStep_edges_mono ff true fudge (collectResidues m) ⟨m, ∅, [], ∅⟩).trans
      Finset.subset_union_left

end Vermouth

namespace Vermouth

/-- C4: `make_bonds` mutates its molecule in place and returns it; for every
input molecule and every setting of `allow_name`, `allow_dist` and `fudge`,
the node list (ids and attributes) is unchanged and every input edge is
still present — edges are only added, never removed. -/
theorem makeBonds_preserves_nodes_and_edges (ff : MBForceField) (an ad : Bool)
    (fudge : ℚ) (m : MGraph) :
    (makeBonds ff an ad fudge m).graph.nodes = m.nodes ∧
    m.edges ⊆ (makeBonds ff an ad fudge m).graph.edges :=
  ⟨makeBonds_graph_nodes ff an ad fudge m, makeBonds_edges_mono ff an ad fudge m⟩

/-! Idempotence machinery: `make_bonds` commutes with enlarging the initial
edge set; the edges it adds depend only on node data. -/

theorem bondsFromDistance_edges_union (ns : List (Nat × MAtom)) (E X : Finset (Sym2 Nat))
    (r : Option (List Nat)) (ne : Finset (Sym2 Nat)) (f : ℚ) :
    (bondsFromDistance ⟨ns, E ∪ X⟩ r ne f).edges =
      (bondsFromDistance ⟨ns, E⟩ r ne f).edges ∪ X := by
  rw [bondsFromDistance_edges, bondsFromDistance_edges]
  exact Finset.union_right_comm E X _

theorem mbStep_union (ff : MBForceField) (ad : Bool) (fudge : ℚ)
    (st st' : MBResult) (X : Finset (Sym2 Nat))
    (hn : st'.graph.nodes = st.graph.nodes)
    (he : st'.graph.edges = st.graph.edges ∪ X)
    (hne : st'.non_edges = st.non_edges) (r : ResKey × List Nat) :
    (mbStep ff ad fudge st' r).graph.nodes = (mbStep ff ad fudge st r).graph.nodes ∧
    (mbStep ff ad fudge st' r).graph.edges = (mbStep ff ad fudge st r).graph.edges ∪ X ∧
    (mbStep ff ad fudge st' r).non_edges = (mbStep ff ad fudge st r).non_edges := by
  cases h : bondsFromNamesCore st.graph.nodes r.1.resname r.2 ff with
  | ok pr =>
      obtain ⟨es, nes⟩ := pr
      have h' : bondsFromNamesCore st'.graph.nodes r.1.resname r.2 ff = .ok (es, nes) := by
        rw [hn]; exact h
      rw [mbStep_eq_ok h, mbStep_eq_ok h']
      refine ⟨hn, ?_, by rw [hne]⟩
      show st'.graph.edges ∪ es = (st.graph.edges ∪ es) ∪ X
      rw [he]
      exact Finset.union_right_comm _ X es
  | error e =>
      have h' : bondsFromNamesCore st'.graph.nodes r.1.resname r.2 ff = .error e := by
        rw [hn]; exact h
      rw [mbStep_eq_error h, mbStep_eq_error h']
      cases ad
      · exact ⟨hn, he, hne⟩
      · simp only [if_pos]
        refine ⟨?_, ?_, hne⟩
        · show (bondsFromDistance st'.graph (some r.2) ∅ fudge).nodes =
            (bondsFromDistance st.graph (some r.2) ∅ fudge).nodes
          rw [bondsFromDistance_nodes, bondsFromDistance_nodes, hn]
        · show (bondsFromDistance st'.graph (some r.2) ∅ fudge).edges =
            (bondsFromDistance st.graph (some r.2) ∅ fudge).edges ∪ X
          rw [bondsFromDistance_edges, bondsFromDistance_edges, hn, he]
          exact Finset.union_right_comm _ X _

theorem foldl_mbStep_union (ff : MBForceField) (ad : Bool) (fudge : ℚ)
    (l : List (ResKey × List Nat)) (st st' : MBResult) (X : Finset (Sym2 Nat))
    (hn : st'.graph.nodes = st.graph.nodes)
    (he : st'.graph.edges = st.graph.edges ∪ X)
    (hne : st'.non_edges = st.non_edges) :
    (l.foldl (mbStep ff ad fudge) st').graph.nodes
        = (l.foldl (mbStep ff ad fudge) st).graph.nodes ∧
    (l.foldl (mbStep ff ad fudge) st').graph.edges
        = (l.foldl (mbStep ff ad fudge) st).graph.edges ∪ X ∧
    (l.foldl (mbStep ff ad fudge) st').non_edges
        = (l.foldl (mbStep ff ad fudge) st).non_edges := by
  induction l generalizing st st' with
  | nil => exact ⟨hn, he, hne⟩
  | cons r rest ih =>
      rw [List.foldl_cons, List.foldl_cons]
      rcases mbStep_union ff ad fudge st st' X hn he hne r with ⟨h1, h2, h3⟩
      exact ih _ _ h1 h2 h3

theorem makeBonds_edges_union (ff : MBForceField) (an ad : Bool) (fudge : ℚ)
    (ns : List (Nat × MAtom)) (E X : Finset (Sym2 Nat)) :
    (makeBonds ff an ad fudge ⟨ns, E ∪ X⟩).graph.edges =
      (makeBonds ff an ad fudge ⟨ns, E⟩).graph.edges ∪ X := by
  unfold makeBonds
  have hres : collectResidues ⟨ns, E ∪ X⟩ = collectResidues ⟨ns, E⟩ := rfl
  cases an
  · cases ad
    · simp only [Bool.false_eq_true, if_false]
    · simp only [Bool.false_eq_true, if_false, if_true]
      exact bondsFromDistance_edges_union ns E X none ∅ fudge
  · simp only [if_true, hres]
    rcases foldl_mbStep_union ff ad fudge (collectResidues ⟨ns, E⟩)
        ⟨⟨ns, E⟩, ∅, [], ∅⟩ ⟨⟨ns, E ∪ X⟩, ∅, [], ∅⟩ X rfl rfl rfl with ⟨h1, h2, h3⟩
    cases ad
    · simp only [Bool.false_eq_true, if_false]
      exact h2
    · simp only [if_true]
      rw [bondsFromDistance_edges, bondsFromDistance_edges, h1, h2, h3]
      exact Finset.union_right_comm _ X _

/-- C5: bond inference is idempotent — running `make_bonds` a second time
on the result of a first run yields the same edge set as the single run,
for every molecule and every setting of the switches and `fudge`. -/
theorem makeBonds_idempotent (ff : MBForceField) (an ad : Bool) (fudge : ℚ) (m : MGraph) :
    (makeBonds ff an ad fudge (makeBonds ff an ad fudge m).graph).graph.edges
      = (makeBonds ff an ad fudge m).graph.edges := by
  have hn : (makeBonds ff an ad fudge m).graph.nodes = m.nodes :=
    makeBonds_graph_nodes ff an ad fudge m
  have hs : m.edges ⊆ (makeBonds ff an ad fudge m).graph.edges :=
    makeBonds_edges_mono ff an ad fudge m
  have hrepr : (makeBonds ff an ad fudge m).graph =
      ⟨m.nodes, m.edges ∪ ((makeBonds ff an ad fudge m).graph.edges \ m.edges)⟩ := by
    have heta : (makeBonds ff an ad fudge m).graph =
        ⟨(makeBonds ff an ad fudge m).graph.nodes,
         (makeBonds ff an ad fudge m).graph.edges⟩ := rfl
    rw [heta, hn, Finset.union_sdiff_of_subset hs]
  calc (makeBonds ff an ad fudge (makeBonds ff an ad fudge m).graph).graph.edges
      = (makeBonds ff an ad fudge
          ⟨m.nodes, m.edges ∪ ((makeBonds ff an ad fudge m).graph.edges \ m.edges)⟩).graph.edges := by
        rw [← hrepr]
    _ = (makeBonds ff an ad fudge ⟨m.nodes, m.edges⟩).graph.edges ∪
          ((makeBonds ff an ad fudge m).graph.edges \ m.edges) :=
        makeBonds_edges_union ff an ad fudge m.nodes m.edges _
    _ = (makeBonds ff an ad fudge m).graph.edges ∪
          ((makeBonds ff an ad fudge m).graph.edges \ m.edges) := rfl
    _ = (makeBonds ff an ad fudge m).graph.edges :=
        Finset.union_eq_left.mpr (Finset.sdiff_subset.trans (Finset.Subset.refl _))

end Vermouth

namespace Vermouth

/-! Lemmas about name-failure recovery. -/

theorem core_error_of_failure (ff : MBForceField) (ns : List (Nat × MAtom))
    (k : ResKey) (idxs : List Nat)
    (hfail : ff.getBlock k.resname = none ∨ ¬ (namedNames ns idxs).Nodup) :
    ∃ e, bondsFromNamesCore ns k.resname idxs ff = .error e := by
  rcases hfail with h | h
  · unfold bondsFromNamesCore
    rw [h]
    exact ⟨_, rfl⟩
  · cases hb : ff.getBlock k.resname with
    | none =>
        unfold bondsFromNamesCore
        rw [hb]
        exact ⟨_, rfl⟩
    | some b =>
        simp only [bondsFromNamesCore, hb]
        by_cases he : b.nodes.isEmpty
        · rw [if_pos he]
          exact ⟨_, rfl⟩
        · rw [if_neg he, if_neg h]
          exact ⟨_, rfl⟩

theorem foldl_mbStep_warning_of_mem (ff : MBForceField) (ad : Bool) (fudge : ℚ)
    (m : MGraph) (k : ResKey) (idxs : List Nat)
    (hfail : ∃ e, bondsFromNamesCore m.nodes k.resname idxs ff = .error e) :
    ∀ (l : List (ResKey × List Nat)) (st : MBResult), st.graph.nodes = m.nodes →
      (k, idxs) ∈ l → k ∈ (l.foldl (mbStep ff ad fudge) st).warnings := by
  intro l
  induction l with
  | nil => intro st _ h; cases h
  | cons r rest ih =>
      intro st hst hmem
      rw [List.foldl_cons]
      rcases List.mem_cons.mp hmem with heq | hmem'
      · subst heq
        obtain ⟨e, he⟩ := hfail
        have he' : bondsFromNamesCore st.graph.nodes k.resname idxs ff = .error e := by
          rw [hst]; exact he
        apply foldl_mbStep_warnings_mono
        rw [mbStep_eq_error he']
        cases ad <;> simp
      · exact ih _ (by rw [mbStep_nodes]; exact hst) hmem'

/-- C3: with name-matching enabled, a residue whose residue name is not a
known block of the force field, or whose atoms do not have pairwise
distinct atom names, is recovered locally: `make_bonds` (a total function
here — the `KeyError` is caught) records a warning for that residue, and
the residue's step is exactly the geometric fallback
`_bonds_from_distance(molecule, idxs)` when distance matching is
enabled. -/
theorem name_failure_recovered_locally (ff : MBForceField) (ad : Bool) (fudge : ℚ)
    (m : MGraph) (k : ResKey) (idxs : List Nat)
    (hmem : (k, idxs) ∈ collectResidues m)
    (hfail : ff.getBlock k.resname = none ∨ ¬ (namedNames m.nodes idxs).Nodup) :
    k ∈ (makeBonds ff true ad fudge m).warnings ∧
    (∀ st : MBResult, st.graph.nodes = m.nodes →
      mbStep ff true fudge st (k, idxs) =
        { st with graph := bondsFromDistance st.graph (some idxs) ∅ fudge,
                  warnings := st.warnings ++ [k],
                  distAdded := st.distAdded ∪
                    ((bondsFromDistance st.graph (some idxs) ∅ fudge).edges \
                      st.graph.edges) }) := by
  have hfail' := core_error_of_failure ff m.nodes k idxs hfail
  constructor
  · have hw := foldl_mbStep_warning_of_mem ff ad fudge m k idxs hfail'
      (collectResidues m) ⟨m, ∅, [], ∅⟩ rfl hmem
    unfold makeBonds
    cases ad <;> simpa using hw
  · intro st hst
    obtain ⟨e, he⟩ := hfail'
    have he' : bondsFromNamesCore st.graph.nodes k.resname idxs ff = .error e := by
      rw [hst]; exact he
    rw [mbStep_eq_error he']
    simp

/-- C3 witness: a single-atom residue named `XXX` unknown to an empty force
field is recovered with a warning. -/
theorem name_failure_recovered_locally_witness :
    (kX, [0]) ∈ collectResidues mX ∧ ffE.getBlock kX.resname = none ∧
    kX ∈ (makeBonds ffE true true 1 mX).warnings :=
  ⟨by decide, by decide,
   (name_failure_recovered_locally ffE true 1 mX kX [0]
      (by decide) (Or.inl (by decide))).1⟩

end Vermouth

namespace Vermouth

/-! Lemmas for the non-edge authority property. -/

theorem nameToIdx_mem {ns : List (Nat × MAtom)} {idxs : List Nat} {str : String} {x : Nat}
    (h : nameToIdx ns idxs str = some x) : x ∈ idxs := by
  unfold nameToIdx at h
  cases hf : (namedNodes ns idxs).find? (fun p => p.2.atomname == some str) with
  | none => rw [hf] at h; cases h
  | some q =>
      rw [hf] at h
      have hq : q ∈ namedNodes ns idxs := List.mem_of_find?_eq_some hf
      have hx : q.1 = x := Option.some.inj h
      unfold namedNodes at hq
      rcases List.mem_filter.mp hq with ⟨_, hcond⟩
      rcases Bool.and_eq_true_iff.mp hcond with ⟨h1, _⟩
      exact hx ▸ (of_decide_eq_true h1)

theorem blockNonEdgeImages_endpoints {ns : List (Nat × MAtom)} {idxs : List Nat}
    {b : Block} {p : Sym2 Nat} (hp : p ∈ blockNonEdgeImages ns idxs b) :
    ∀ x ∈ p, x ∈ idxs := by
  unfold blockNonEdgeImages at hp
  rcases List.mem_filterMap.mp (List.mem_dedup.mp hp) with ⟨e, _, hsome⟩
  cases h1 : nameToIdx ns idxs (blockAtomName b e.1) with
  | none => rw [h1] at hsome; cases hsome
  | some x1 =>
      cases h2 : nameToIdx ns idxs (blockAtomName b e.2) with
      | none => rw [h1, h2] at hsome; cases hsome
      | some x2 =>
          rw [h1, h2] at hsome
          have hpe : s(x1, x2) = p := Option.some.inj hsome
          intro x hx
          rw [← hpe] at hx
          rcases Sym2.mem_iff.mp hx with rfl | rfl
          · exact nameToIdx_mem h1
          · exact nameToIdx_mem h2

theorem core_ok_non_edges_endpoints {ns : List (Nat × MAtom)} {rn : Option String}
    {idxs : List Nat} {ff : MBForceField} {es nes : Finset (Sym2 Nat)}
    (h : bondsFromNamesCore ns rn idxs ff = .ok (es, nes)) :
    ∀ p ∈ nes, ∀ x ∈ p, x ∈ idxs := by
  cases hb : ff.getBlock rn with
  | none => unfold bondsFromNamesCore at h; rw [hb] at h; cases h
  | some b =>
      simp only [bondsFromNamesCore, hb] at h
      by_cases he : b.nodes.isEmpty
      · rw [if_pos he] at h; cases h
      · rw [if_neg he] at h
        by_cases hd : (namedNames ns idxs).Nodup
        · rw [if_pos hd] at h
          have hnes : nes = blockNonEdgeImages ns idxs b :=
            (Prod.mk.injEq .. ▸ Except.ok.inj h).2.symm
          intro p hp
          exact blockNonEdgeImages_endpoints (hnes ▸ hp)
        · rw [if_neg hd] at h; cases h

theorem distCandidates_spec {ns : List (Nat × MAtom)} {restrict : List Nat}
    {ne : Finset (Sym2 Nat)} {f : ℚ} {p : Sym2 Nat}
    (hp : p ∈ distCandidates ns restrict ne f) :
    p ∉ ne ∧ (∀ x ∈ p, x ∈ restrict) := by
  unfold distCandidates at hp
  rcases List.mem_filterMap.mp (List.mem_toFinset.mp hp) with ⟨e, he, hsome⟩
  by_cases hc : s(e.1, e.2) ∉ ne ∧ geomOK ns f e.1 e.2 = true
  · rw [if_pos hc] at hsome
    have hpe : s(e.1, e.2) = p := Option.some.inj hsome
    rcases mem_listPairs_endpoints he with ⟨h1, h2⟩
    have he1 : e.1 ∈ restrict := (mem_eligList.mp h1).2.1
    have he2 : e.2 ∈ restrict := (mem_eligList.mp h2).2.1
    refine ⟨hpe ▸ hc.1, ?_⟩
    intro x hx
    rw [← hpe] at hx
    rcases Sym2.mem_iff.mp hx with rfl | rfl
    · exact he1
    · exact he2
  · rw [if_neg hc] at hsome
    cases hsome

theorem bfd_added_mem {g : MGraph} {r : Option (List Nat)} {ne : Finset (Sym2 Nat)}
    {f : ℚ} {p : Sym2 Nat} (hp : p ∈ (bondsFromDistance g r ne f).edges)
    (hnp : p ∉ g.edges) :
    p ∈ distCandidates g.nodes (effRestrict g.nodes r) ne f := by
  rw [bondsFromDistance_edges] at hp
  rcases Finset.mem_union.mp hp with h | h
  · exact absurd h hnp
  · exact h

theorem insertResidue_groups_ne_nil {k : ResKey} {i : Nat}
    {l : List (ResKey × List Nat)} (h : ∀ e ∈ l, e.2 ≠ [])
    {e : ResKey × List Nat} (he : e ∈ insertResidue k i l) : e.2 ≠ [] := by
  induction l with
  | nil =>
      rcases List.mem_singleton.mp he with rfl
      simp
  | cons hd tl ih =>
      obtain ⟨k0, gl0⟩ := hd
      by_cases hk : k = k0
      · subst hk
        rw [show insertResidue k i ((k, gl0) :: tl) = (k, gl0 ++ [i]) :: tl from by
          simp [insertResidue]] at he
        rcases List.mem_cons.mp he with rfl | hm
        · simp
        · exact h _ (List.mem_cons_of_mem _ hm)
      · rw [show insertResidue k i ((k0, gl0) :: tl) = (k0, gl0) :: insertResidue k i tl from by
          simp [insertResidue, hk]] at he
        rcases List.mem_cons.mp he with rfl | hm
        · exact h _ (List.mem_cons_self _ _)
        · exact ih (fun e' he' => h e' (List.mem_cons_of_mem _ he')) hm

theorem collectResidues_groups_ne_nil (g : MGraph) {e : ResKey × List Nat}
    (he : e ∈ collectResidues g) : e.2 ≠ [] := by
  unfold collectResidues at he
  suffices h : ∀ (ns : List (Nat × MAtom)) (acc : List (ResKey × List Nat)),
      (∀ e' ∈ acc, e'.2 ≠ []) →
      ∀ e' ∈ ns.foldl (fun a p => insertResidue (residueKey p.2) p.1 a) acc, e'.2 ≠ [] by
    exact h g.nodes [] (by intro e' he'; cases he') e he
  intro ns
  induction ns with
  | nil => intro acc hacc e' he'; exact hacc e' he'
  | cons p rest ih =>
      intro acc hacc e' he'
      rw [List.foldl_cons] at he'
      exact ih _ (fun e'' he'' => insertResidue_groups_ne_nil hacc he'') e' he'

theorem entries_key_injective {l : List (ResKey × List Nat)}
    (h : (l.map Prod.fst).Nodup) {e1 e2 : ResKey × List Nat}
    (h1 : e1 ∈ l) (h2 : e2 ∈ l) (hk : e1.1 = e2.1) : e1 = e2 := by
  obtain ⟨k1, g1⟩ := e1
  obtain ⟨k2, g2⟩ := e2
  have hk' : k1 = k2 := hk
  subst hk'
  have : g1 = g2 := keys_nodup_group_eq h h1 h2
  rw [this]

theorem groups_disjoint (g : MGraph) (hN : (idsOf g.nodes).Nodup)
    {e1 e2 : ResKey × List Nat} (h1 : e1 ∈ collectResidues g)
    (h2 : e2 ∈ collectResidues g) (hk : e1.1 ≠ e2.1) {x : Nat}
    (hx1 : x ∈ e1.2) (hx2 : x ∈ e2.2) : False := by
  have m1 : memGroup (collectResidues g) e1.1 x := ⟨e1.2, h1, hx1⟩
  have m2 : memGroup (collectResidues g) e2.1 x := ⟨e2.2, h2, hx2⟩
  rcases (mem_collectResidues_iff g e1.1 x).mp m1 with ⟨c, hc, hck⟩
  rcases (mem_collectResidues_iff g e2.1 x).mp m2 with ⟨d, hd, hdk⟩
  have hcd : c = d := nodes_id_unique hN hc hd
  exact hk (by rw [← hck, ← hdk, hcd])

end Vermouth

namespace Vermouth

theorem foldl_mbStep_inv (ff : MBForceField) (ad : Bool) (fudge : ℚ) (m : MGraph)
    (l : List (ResKey × List Nat)) (hl : ∀ e ∈ l, e ∈ collectResidues m)
    (st : MBResult) (hst : st.graph.nodes = m.nodes)
    (hne : ∀ p ∈ st.non_edges, ∃ e ∈ collectResidues m,
      (∃ r, bondsFromNamesCore m.nodes e.1.resname e.2 ff = .ok r) ∧ ∀ x ∈ p, x ∈ e.2)
    (hda : ∀ p ∈ st.distAdded, ∃ e ∈ collectResidues m,
      (∀ r, bondsFromNamesCore m.nodes e.1.resname e.2 ff ≠ .ok r) ∧ ∀ x ∈ p, x ∈ e.2) :
    (∀ p ∈ (l.foldl (mbStep ff ad fudge) st).non_edges, ∃ e ∈ collectResidues m,
      (∃ r, bondsFromNamesCore m.nodes e.1.resname e.2 ff = .ok r) ∧ ∀ x ∈ p, x ∈ e.2) ∧
    (∀ p ∈ (l.foldl (mbStep ff ad fudge) st).distAdded, ∃ e ∈ collectResidues m,
      (∀ r, bondsFromNamesCore m.nodes e.1.resname e.2 ff ≠ .ok r) ∧ ∀ x ∈ p, x ∈ e.2) := by
  induction l generalizing st with
  | nil => exact ⟨hne, hda⟩
  | cons r0 rest ih =>
      rw [List.foldl_cons]
      have hr0 : r0 ∈ collectResidues m := hl r0 (List.mem_cons_self _ _)
      have hst' : (mbStep ff ad fudge st r0).graph.nodes = m.nodes := by
        rw [mbStep_nodes]; exact hst
      have hstep : (∀ p ∈ (mbStep ff ad fudge st r0).non_edges, ∃ e ∈ collectResidues m,
          (∃ r, bondsFromNamesCore m.nodes e.1.resname e.2 ff = .ok r) ∧ ∀ x ∈ p, x ∈ e.2) ∧
          (∀ p ∈ (mbStep ff ad fudge st r0).distAdded, ∃ e ∈ collectResidues m,
          (∀ r, bondsFromNamesCore m.nodes e.1.resname e.2 ff ≠ .ok r) ∧ ∀ x ∈ p, x ∈ e.2) := by
        cases hcore : bondsFromNamesCore m.nodes r0.1.resname r0.2 ff with
        | ok pr =>
            obtain ⟨es, nes⟩ := pr
            have hcore' : bondsFromNamesCore st.graph.nodes r0.1.resname r0.2 ff
                = .ok (es, nes) := by rw [hst]; exact hcore
            rw [mbStep_eq_ok hcore']
            constructor
            · intro p hp
              rcases Finset.mem_union.mp hp with h | h
              · exact hne p h
              · exact ⟨r0, hr0, ⟨(es, nes), hcore⟩,
                  core_ok_non_edges_endpoints hcore p h⟩
            · exact hda
        | error e =>
            have hcore' : bondsFromNamesCore st.graph.nodes r0.1.resname r0.2 ff
                = .error e := by rw [hst]; exact hcore
            rw [mbStep_eq_error hcore']
            cases ad with
            | false => exact ⟨hne, hda⟩
            | true =>
                simp only [if_true]
                constructor
                · exact hne
                · intro p hp
                  rcases Finset.mem_union.mp hp with h | h
                  · exact hda p h
                  · rcases Finset.mem_sdiff.mp h with ⟨hin, hnin⟩
                    have hc := bfd_added_mem hin hnin
                    have hne0 : r0.2 ≠ [] := collectResidues_groups_ne_nil m hr0
                    have heff : effRestrict st.graph.nodes (some r0.2) = r0.2 := by
                      unfold effRestrict
                      cases h0 : r0.2 with
                      | nil => exact absurd h0 hne0
                      | cons a as => rfl
                    rw [heff] at hc
                    rcases distCandidates_spec hc with ⟨_, hend⟩
                    refine ⟨r0, hr0, ?_, hend⟩
                    intro r hr
                    rw [hcore] at hr
                    cases hr
      exact ih (fun e' he' => hl e' (List.mem_cons_of_mem _ he')) _ hst' hstep.1 hstep.2

theorem makeBonds_true_non_edges (ff : MBForceField) (ad : Bool) (fudge : ℚ) (m : MGraph) :
    (makeBonds ff true ad fudge m).non_edges =
      ((collectResidues m).foldl (mbStep ff ad fudge) ⟨m, ∅, [], ∅⟩).non_edges := by
  cases ad <;> rfl

theorem makeBonds_true_distAdded (ff : MBForceField) (ad : Bool) (fudge : ℚ) (m : MGraph) :
    (makeBonds ff true ad fudge m).distAdded =
      (if ad then
        ((collectResidues m).foldl (mbStep ff ad fudge) ⟨m, ∅, [], ∅⟩).distAdded ∪
          ((bondsFromDistance
              ((collectResidues m).foldl (mbStep ff ad fudge) ⟨m, ∅, [], ∅⟩).graph none
              ((collectResidues m).foldl (mbStep ff ad fudge) ⟨m, ∅, [], ∅⟩).non_edges
              fudge).edges \
            ((collectResidues m).foldl (mbStep ff ad fudge) ⟨m, ∅, [], ∅⟩).graph.edges)
      else ((collectResidues m).foldl (mbStep ff ad fudge) ⟨m, ∅, [], ∅⟩).distAdded) := by
  cases ad <;> rfl

theorem makeBonds_false_non_edges (ff : MBForceField) (ad : Bool) (fudge : ℚ) (m : MGraph) :
    (makeBonds ff false ad fudge m).non_edges = ∅ := by
  cases ad <;> rfl

/-- C2: every atom-id pair recorded as a Block-declared non-edge during
name-based matching is never added as an edge by any geometric distance
pass of the same `make_bonds` run (`distAdded` collects exactly the edges
the `_bonds_from_distance` calls add), regardless of measured distance. -/
theorem non_edge_never_distance_bonded (ff : MBForceField) (an ad : Bool) (fudge : ℚ)
    (m : MGraph) (hN : (idsOf m.nodes).Nodup) (p : Sym2 Nat)
    (hp : p ∈ (makeBonds ff an ad fudge m).non_edges) :
    p ∉ (makeBonds ff an ad fudge m).distAdded := by
  intro hd
  cases an with
  | false =>
      rw [makeBonds_false_non_edges] at hp
      exact absurd hp (Finset.not_mem_empty p)
  | true =>
      rw [makeBonds_true_non_edges] at hp
      rw [makeBonds_true_distAdded] at hd
      have hinv := foldl_mbStep_inv ff ad fudge m (collectResidues m)
        (fun e he => he) ⟨m, ∅, [], ∅⟩ rfl
        (fun q hq => absurd hq (Finset.not_mem_empty q))
        (fun q hq => absurd hq (Finset.not_mem_empty q))
      have hclash : p ∈ ((collectResidues m).foldl (mbStep ff ad fudge)
          ⟨m, ∅, [], ∅⟩).distAdded → False := by
        intro hda1
        rcases hinv.1 p hp with ⟨e1, he1, ⟨r1, hr1⟩, hend1⟩
        rcases hinv.2 p hda1 with ⟨e2, he2, hfail2, hend2⟩
        have hne12 : e1.1 ≠ e2.1 := by
          intro hk
          have he12 : e1 = e2 := entries_key_injective (collectResidues_keys_nodup m) he1 he2 hk
          exact hfail2 r1 (he12 ▸ hr1)
        induction p using Sym2.ind with
        | _ a b =>
            exact groups_disjoint m hN he1 he2 hne12
              (hend1 a (Sym2.mem_mk_left a b)) (hend2 a (Sym2.mem_mk_left a b))
      cases ad with
      | false => exact hclash hd
      | true =>
          rw [if_pos rfl] at hd
          rcases Finset.mem_union.mp hd with h | h
          · exact hclash h
          · rcases Finset.mem_sdiff.mp h with ⟨hin, hnin⟩
            have hc := bfd_added_mem hin hnin
            exact (distCandidates_spec hc).1 hp

/-- C2 witness: residue `ALA` declares `A–C` a non-edge; after a full
`make_bonds` run that records it, the pair is not among the edges the
distance passes added. -/
theorem non_edge_never_distance_bonded_witness :
    (idsOf mA.nodes).Nodup ∧
    (s(0, 2) : Sym2 Nat) ∈ (makeBonds ffA true true 1 mA).non_edges ∧
    (s(0, 2) : Sym2 Nat) ∉ (makeBonds ffA true true 1 mA).distAdded :=
  ⟨by decide, by decide,
   non_edge_never_distance_bonded ffA true true 1 mA (by decide) s(0, 2) (by decide)⟩

end Vermouth

namespace GoVS

/-! Association-list lemmas. -/

theorem find?_cons_pos {α : Type} (p : α → Bool) (a : α) (l : List α) (h : p a = true) :
    List.find? p (a :: l) = some a :=
  List.find?_cons_of_pos l h

theorem find?_cons_neg {α : Type} (p : α → Bool) (a : α) (l : List α) (h : ¬ p a = true) :
    List.find? p (a :: l) = List.find? p l :=
  List.find?_cons_of_neg l h

theorem find?_map_update_ne {β : Type} (l : List (String × β)) (k k' : String)
    (hk : k ≠ k') (v : β) :
    (l.map (fun p => if p.1 == k' then (k', v) else p)).find? (fun p => p.1 == k)
      = l.find? (fun p => p.1 == k) := by
  induction l with
  | nil => rfl
  | cons p t ih =>
      rw [List.map_cons]
      by_cases hp : (p.1 == k') = true
      · rw [if_pos hp]
        have hp' : p.1 = k' := eq_of_beq hp
        have h1 : ¬ (((k', v).1 == k) = true) := by
          simp only [beq_iff_eq]
          exact Ne.symm hk
        have h2 : ¬ ((p.1 == k) = true) := by
          simp only [beq_iff_eq, hp']
          exact Ne.symm hk
        rw [find?_cons_neg (fun q => q.1 == k) (k', v) _ h1,
            find?_cons_neg (fun q => q.1 == k) p _ h2, ih]
      · rw [if_neg hp]
        by_cases hq : (p.1 == k) = true
        · rw [find?_cons_pos (fun q => q.1 == k) p _ hq,
              find?_cons_pos (fun q => q.1 == k) p _ hq]
        · rw [find?_cons_neg (fun q => q.1 == k) p _ hq,
              find?_cons_neg (fun q => q.1 == k) p _ hq, ih]

theorem find?_map_update_self {β : Type} (l : List (String × β)) (k : String) (v : β)
    (h : l.any (fun p => p.1 == k)) :
    (l.map (fun p => if p.1 == k then (k, v) else p)).find? (fun p => p.1 == k)
      = some (k, v) := by
  induction l with
  | nil => cases h
  | cons p t ih =>
      rw [List.map_cons]
      by_cases hp : (p.1 == k) = true
      · rw [if_pos hp]
        exact find?_cons_pos (fun q => q.1 == k) (k, v) _ (by simp)
      · rw [if_neg hp]
        rw [find?_cons_neg (fun q => q.1 == k) p _ hp]
        rcases List.any_eq_true.mp h with ⟨q, hq, hqk⟩
        rcases List.mem_cons.mp hq with rfl | hqt
        · exact absurd hqk hp
        · exact ih (List.any_eq_true.mpr ⟨q, hqt, hqk⟩)

theorem alistGet_alistSet_self {β : Type} (l : List (String × β)) (k : String)
    (v : β) (d : β) : alistGet (alistSet l k v) k d = v := by
  unfold alistSet alistGet
  by_cases h : l.any (fun p => p.1 == k)
  · rw [if_pos h, find?_map_update_self l k v h]
    rfl
  · rw [if_neg h, List.find?_append]
    have hnone : l.find? (fun p => p.1 == k) = none := by
      rw [List.find?_eq_none]
      intro x hx hc
      exact h (List.any_eq_true.mpr ⟨x, hx, hc⟩)
    rw [hnone, Option.none_or, find?_cons_pos (fun q => q.1 == k) (k, v) _ (by simp)]
    rfl

theorem alistGet_alistSet_ne {β : Type} (l : List (String × β)) (k k' : String)
    (hk : k ≠ k') (v : β) (d : β) :
    alistGet (alistSet l k' v) k d = alistGet l k d := by
  unfold alistSet alistGet
  by_cases h : l.any (fun p => p.1 == k')
  · rw [if_pos h, find?_map_update_ne l k k' hk v]
  · rw [if_neg h, List.find?_append]
    have hone : [(k', v)].find? (fun p => p.1 == k) = none := by
      rw [List.find?_eq_none]
      intro x hx hc
      rcases List.mem_singleton.mp hx with rfl
      exact hk (eq_of_beq hc).symm
    rw [hone, Option.or_none]

end GoVS

namespace GoVS

/-! Lemmas about the virtual-site loop and the augmentation pass. -/

theorem vsLoop_spec (pre bb an : String) (ch : ℚ) (l : List (Nat × VAtom)) :
    ∀ (i : Nat) (c : Int),
      List.Forall₂ (fun src new : Nat × VAtom =>
          new.2.resid = src.2.resid ∧ new.2.resname = src.2.resname ∧
          new.2.chain = src.2.chain ∧ new.2.posref = src.2.posref)
        (l.filter (fun p => decide (p.2.atomname = some bb)))
        (vsLoop pre bb an ch l i c).1 ∧
      (vsLoop pre bb an ch l i c).2.length
        = (l.filter (fun p => decide (p.2.atomname = some bb))).length := by
  induction l with
  | nil => intro i c; exact ⟨List.Forall₂.nil, rfl⟩
  | cons p t ih =>
      intro i c
      obtain ⟨nid, a⟩ := p
      by_cases h : a.atomname = some bb
      · rw [List.filter_cons_of_pos (by simpa using h)]
        rw [show vsLoop pre bb an ch ((nid, a) :: t) i c =
          ((i + 1, { atomname := some an, resid := a.resid, resname := a.resname,
                     chain := a.chain, atype := some (pre ++ "_" ++ toString a.resid),
                     charge_group := some (c + 1), charge := some ch,
                     posref := a.posref }) :: (vsLoop pre bb an ch t (i + 1) (c + 1)).1,
           (⟨[i + 1, nid], ["1"], true, "Virtual go site"⟩ : Interaction)
             :: (vsLoop pre bb an ch t (i + 1) (c + 1)).2) from by
          simp [vsLoop, h]]
        refine ⟨List.Forall₂.cons ⟨rfl, rfl, rfl, rfl⟩ (ih (i + 1) (c + 1)).1, ?_⟩
        simp only [List.length_cons, (ih (i + 1) (c + 1)).2]
      · rw [List.filter_cons_of_neg (by simpa using h)]
        rw [show vsLoop pre bb an ch ((nid, a) :: t) i c = vsLoop pre bb an ch t i c from by
          simp [vsLoop, h]]
        exact ih i c

theorem addVirtualSites_nodes (m : VMol) (pre : String) (h : ¬ m.nodes.isEmpty = true) :
    (addVirtualSites m pre "BB" "CA" 0).nodes =
      m.nodes ++ (vsLoop pre "BB" "CA" 0 m.nodes (maxNodeId m.nodes)
        (maxChargeGroup m.nodes)).1 := by
  unfold addVirtualSites
  rw [if_neg h]

theorem addVirtualSites_nodes_empty (m : VMol) (pre : String) (h : m.nodes.isEmpty = true) :
    addVirtualSites m pre "BB" "CA" 0 = m := by
  unfold addVirtualSites
  rw [if_pos h]

theorem addVirtualSites_vs (m : VMol) (pre : String) (h : ¬ m.nodes.isEmpty = true) :
    alistGet (addVirtualSites m pre "BB" "CA" 0).interactions "virtual_sitesn" []
      = alistGet m.interactions "virtual_sitesn" []
        ++ (vsLoop pre "BB" "CA" 0 m.nodes (maxNodeId m.nodes)
          (maxChargeGroup m.nodes)).2 := by
  unfold addVirtualSites
  rw [if_neg h]
  show alistGet (alistSet _ _ _) _ _ = _
  rw [alistGet_alistSet_self]
  congr 1
  by_cases h2 : m.interactions.any (fun p => p.1 == "virtual_sitesn")
  · rw [if_pos h2]
  · rw [if_neg h2]
    unfold alistGet
    have hnone : m.interactions.find? (fun p => p.1 == "virtual_sitesn") = none := by
      rw [List.find?_eq_none]
      intro x hx hc
      exact h2 (List.any_eq_true.mpr ⟨x, hx, hc⟩)
    rw [List.find?_append, hnone, Option.none_or,
        find?_cons_pos (fun q => q.1 == "virtual_sitesn") ("virtual_sitesn", []) _ (by simp)]
    rfl

theorem addVirtualSites_meta (m : VMol) (pre : String) :
    (addVirtualSites m pre "BB" "CA" 0).meta_post_section_lines = m.meta_post_section_lines ∧
    (addVirtualSites m pre "BB" "CA" 0).meta_moltype = m.meta_moltype := by
  unfold addVirtualSites
  by_cases h : m.nodes.isEmpty = true
  · rw [if_pos h]; exact ⟨rfl, rfl⟩
  · rw [if_neg h]; exact ⟨rfl, rfl⟩

theorem runMolecule_eq (sections : List String) (m : VMol) (moltype : String)
    (hm : m.meta_moltype = some moltype) (hne : moltype ≠ "") :
    runMolecule sections m = .ok { addVirtualSites m moltype "BB" "CA" 0 with
      meta_post_section_lines := sections.foldl
        (fun acc sec => alistSet acc sec (alistGet acc sec [] ++ [includeLine moltype sec]))
        (addVirtualSites m moltype "BB" "CA" 0).meta_post_section_lines } := by
  simp only [runMolecule, hm]
  rw [if_neg hne]

theorem foldl_includes_notmem (f : String → String) (sections : List String)
    (sec : String) (hnm : sec ∉ sections) :
    ∀ l : List (String × List String),
      alistGet (sections.foldl
        (fun acc s' => alistSet acc s' (alistGet acc s' [] ++ [f s'])) l) sec []
      = alistGet l sec [] := by
  induction sections with
  | nil => intro l; rfl
  | cons s0 rest ih =>
      intro l
      rw [List.foldl_cons]
      have hs0 : sec ≠ s0 := fun hc => hnm (hc ▸ List.mem_cons_self _ _)
      rw [ih (fun hc => hnm (List.mem_cons_of_mem _ hc)) _,
          alistGet_alistSet_ne _ sec s0 hs0]

theorem foldl_includes_get (f : String → String) (sections : List String)
    (hnd : sections.Nodup) (sec : String) (hmem : sec ∈ sections) :
    ∀ l : List (String × List String),
      alistGet (sections.foldl
        (fun acc s' => alistSet acc s' (alistGet acc s' [] ++ [f s'])) l) sec []
      = alistGet l sec [] ++ [f sec] := by
  induction sections with
  | nil => cases hmem
  | cons s0 rest ih =>
      intro l
      rw [List.foldl_cons]
      rcases List.nodup_cons.mp hnd with ⟨hs0, hrest⟩
      rcases List.mem_cons.mp hmem with rfl | hmem'
      · rw [foldl_includes_notmem f rest sec hs0, alistGet_alistSet_self]
      · have hne0 : sec ≠ s0 := fun hc => hs0 (hc ▸ hmem')
        rw [ih hrest hmem' _, alistGet_alistSet_ne _ sec s0 hne0]

end GoVS

namespace GoVS

/-- C8 counterexample: a molecule with 5 backbone-named atoms and 3 other
atoms has, after one application of the augmentation pass, 13 atoms and 5
new virtual-site interactions — not 8 atoms and 3 interactions as
claimed. -/
theorem goVirtIncludes_scenario_cex :
    ((runMolecule ["exclusions"] m8).toOption.map (fun o => o.nodes.length) = some 13 ∧
      (runMolecule ["exclusions"] m8).toOption.map
        (fun o => (alistGet o.interactions "virtual_sitesn" []).length) = some 5) ∧
    ¬ ((runMolecule ["exclusions"] m8).toOption.map (fun o => o.nodes.length) = some 8 ∧
       (runMolecule ["exclusions"] m8).toOption.map
         (fun o => (alistGet o.interactions "virtual_sitesn" []).length) = some 3) := by
  decide

/-- C8 amended: one application of the augmentation pass appends one new
atom and one new virtual-site interaction per backbone-named atom (so the
5+3-atom scenario yields 13 atoms and 5 new interactions), appends exactly
one include line per configured section, and each appended atom shares its
source atom's residue id, residue name and chain and references the same
position (aliasing, not copying). -/
theorem goVirtIncludes_counts (sections : List String) (hsec : sections.Nodup)
    (m : VMol) (moltype : String) (hm : m.meta_moltype = some moltype)
    (hne : moltype ≠ "") :
    ∃ out, runMolecule sections m = .ok out ∧
      out.nodes.length = m.nodes.length
        + (m.nodes.filter (fun p => decide (p.2.atomname = some "BB"))).length ∧
      (alistGet out.interactions "virtual_sitesn" []).length
        = (alistGet m.interactions "virtual_sitesn" []).length
          + (m.nodes.filter (fun p => decide (p.2.atomname = some "BB"))).length ∧
      (∀ sec ∈ sections, alistGet out.meta_post_section_lines sec []
        = alistGet m.meta_post_section_lines sec [] ++ [includeLine moltype sec]) ∧
      List.Forall₂ (fun src new : Nat × VAtom =>
          new.2.resid = src.2.resid ∧ new.2.resname = src.2.resname ∧
          new.2.chain = src.2.chain ∧ new.2.posref = src.2.posref)
        (m.nodes.filter (fun p => decide (p.2.atomname = some "BB")))
        (out.nodes.drop m.nodes.length) := by
  refine ⟨_, runMolecule_eq sections m moltype hm hne, ?_, ?_, ?_, ?_⟩
  · show (addVirtualSites m moltype "BB" "CA" 0).nodes.length = _
    by_cases hE : m.nodes.isEmpty = true
    · rw [addVirtualSites_nodes_empty m moltype hE]
      rw [List.isEmpty_iff.mp hE]
      rfl
    · rw [addVirtualSites_nodes m moltype hE, List.length_append]
      congr 1
      rw [← (vsLoop_spec moltype "BB" "CA" 0 m.nodes (maxNodeId m.nodes)
        (maxChargeGroup m.nodes)).1.length_eq]
  · show (alistGet (addVirtualSites m moltype "BB" "CA" 0).interactions
      "virtual_sitesn" []).length = _
    by_cases hE : m.nodes.isEmpty = true
    · rw [addVirtualSites_nodes_empty m moltype hE]
      rw [List.isEmpty_iff.mp hE]
      rfl
    · rw [addVirtualSites_vs m moltype hE, List.length_append]
      congr 1
      exact (vsLoop_spec moltype "BB" "CA" 0 m.nodes (maxNodeId m.nodes)
        (maxChargeGroup m.nodes)).2
  · intro sec hsecmem
    show alistGet (sections.foldl _ (addVirtualSites m moltype "BB" "CA" 0).meta_post_section_lines)
      sec [] = _
    rw [foldl_includes_get (includeLine moltype) sections hsec sec hsecmem,
        (addVirtualSites_meta m moltype).1]
  · show List.Forall₂ _ _ ((addVirtualSites m moltype "BB" "CA" 0).nodes.drop m.nodes.length)
    by_cases hE : m.nodes.isEmpty = true
    · rw [addVirtualSites_nodes_empty m moltype hE]
      rw [List.isEmpty_iff.mp hE]
      exact List.Forall₂.nil
    · rw [addVirtualSites_nodes m moltype hE, List.drop_left]
      exact (vsLoop_spec moltype "BB" "CA" 0 m.nodes (maxNodeId m.nodes)
        (maxChargeGroup m.nodes)).1

/-- C8 witness: the amended statement instantiated at the 5+3-atom
molecule. -/
theorem goVirtIncludes_counts_witness :
    ∃ out, runMolecule ["exclusions"] m8 = .ok out ∧
      out.nodes.length = m8.nodes.length
        + (m8.nodes.filter (fun p => decide (p.2.atomname = some "BB"))).length ∧
      (alistGet out.interactions "virtual_sitesn" []).length
        = (alistGet m8.interactions "virtual_sitesn" []).length
          + (m8.nodes.filter (fun p => decide (p.2.atomname = some "BB"))).length ∧
      (∀ sec ∈ ["exclusions"], alistGet out.meta_post_section_lines sec []
        = alistGet m8.meta_post_section_lines sec [] ++ [includeLine "mol" sec]) ∧
      List.Forall₂ (fun src new : Nat × VAtom =>
          new.2.resid = src.2.resid ∧ new.2.resname = src.2.resname ∧
          new.2.chain = src.2.chain ∧ new.2.posref = src.2.posref)
        (m8.nodes.filter (fun p => decide (p.2.atomname = some "BB")))
        (out.nodes.drop m8.nodes.length) :=
  goVirtIncludes_counts ["exclusions"] (by decide) m8 "mol" (by decide) (by decide)

/-- C9 counterexample: the augmentation pass applied to an atom-less
molecule does not leave it unchanged — it still appends the include line
to the `post_section_lines` metadata. -/
theorem goVirtIncludes_empty_molecule_cex :
    (runMolecule ["exclusions"] mE).toOption ≠ some mE ∧
    (runMolecule ["exclusions"] mE).toOption.map (fun o => o.meta_post_section_lines)
      = some [("exclusions", [includeLine "mol" "exclusions"])] := by
  decide

/-- C9 amended: on an atom-less molecule the augmentation pass adds no
atoms and no interactions and keeps the moltype, but it still appends one
include line per configured section to the `post_section_lines`
metadata. -/
theorem goVirtIncludes_empty_molecule_meta (sections : List String) (m : VMol)
    (moltype : String) (hnodes : m.nodes = []) (hm : m.meta_moltype = some moltype)
    (hne : moltype ≠ "") :
    runMolecule sections m = .ok { m with meta_post_section_lines :=
      (sections.foldl (fun acc sec => alistSet acc sec
        (alistGet acc sec [] ++ [includeLine moltype sec])) m.meta_post_section_lines) } := by
  rw [runMolecule_eq sections m moltype hm hne]
  rw [addVirtualSites_nodes_empty m moltype (by rw [hnodes]; rfl)]

/-- C9 witness: the amended statement instantiated at the concrete
atom-less molecule. -/
theorem goVirtIncludes_empty_molecule_meta_witness :
    runMolecule ["exclusions"] mE = .ok { mE with meta_post_section_lines :=
      (["exclusions"].foldl (fun acc sec => alistSet acc sec
        (alistGet acc sec [] ++ [includeLine "mol" sec])) mE.meta_post_section_lines) } :=
  goVirtIncludes_empty_molecule_meta ["exclusions"] mE "mol" (by decide) (by decide) (by decide)

end GoVS

namespace Vermouth

/-- C7: on the sequential path (`nproc` unset or at most 1), for any
non-empty system, `MakeBonds.run_system` rebinds `system` to the fused
graph and invokes the base-class system runner on it; the fused molecule
graph has no `molecules` attribute, so the call fails (Python:
`AttributeError`) — the announced split into connected components of the
residue-contracted graph is never reached and the caller's system is never
re-partitioned. -/
theorem runSystem_sequential_raises (ff : MBForceField) (an ad : Bool) (fudge : ℚ)
    (nproc : Option Nat) (sys : MBSystem) (h1 : sys.molecules ≠ [])
    (h2 : nproc = none ∨ ∃ n, nproc = some n ∧ n ≤ 1) :
    makeBondsRunSystem ff an ad fudge nproc sys =
      .error "AttributeError: the graph has no attribute molecules" := by
  have hni : sys.molecules.isEmpty = false := by
    cases hh : sys.molecules with
    | nil => exact absurd hh h1
    | cons a l => rfl
  rcases h2 with rfl | ⟨n, rfl, hn⟩
  · unfold makeBondsRunSystem
    rw [hni]
    rfl
  · unfold makeBondsRunSystem
    have hd : decide (n > 1) = false := decide_eq_false (by omega)
    rw [hni]
    simp only [hd, Bool.false_eq_true, if_false]
    rfl

/-- C7 witness: a one-molecule system with `nproc` unset. -/
theorem runSystem_sequential_raises_witness :
    makeBondsRunSystem ffE true true 1 none sysW =
      .error "AttributeError: the graph has no attribute molecules" :=
  runSystem_sequential_raises ffE true true 1 none sysW (List.cons_ne_nil _ _) (Or.inl rfl)

end Vermouth
